import Mathlib

/-!
Verification of the dependency-driven schedule propagation engine of
src/app.py (functions adjust_start_date_based_on_dependency and
cascade_updates, plus the task API handlers).

The database session is embedded as a list of task rows.  Calendar dates
are embedded as integers (a Python date plus a timedelta of k days is the
ordinal of the date plus k, and date comparison is integer comparison).
Python recursion is embedded with an explicit fuel parameter standing for
the remaining recursion depth: a result of none means the recursion did
not complete within the given depth bound.
-/

namespace Connect2

/-- A task row.  Fields mirror the Task model of src/app.py restricted to
what the scheduling engine reads: id, start_date, duration_days,
dependency_id, is_completed.  duration_days is an Int because the handlers
store the unchecked result of int() on user input. -/
structure Task where
  id : Nat
  start_date : Int
  duration_days : Int
  dependency_id : Option Nat
  is_completed : Bool
deriving DecidableEq

/-- The task table of the session, as a list of rows. -/
abbrev Store := List Task

/-- db.session.get(Task, i): first row whose primary key is i. -/
def getTask (σ : Store) (i : Nat) : Option Task :=
  σ.find? (fun t => decide (t.id = i))

/-- Derived end date of a task: start_date + duration_days, the value
parent_end_date computed in adjust_start_date_based_on_dependency. -/
def endDate (t : Task) : Int :=
  t.start_date + t.duration_days

/-- Mutating task.start_date in the session: replace the start_date of the
row with id i. -/
def setStart (σ : Store) (i : Nat) (v : Int) : Store :=
  σ.map (fun t => if t.id = i then { t with start_date := v } else t)

/-- adjust_start_date_based_on_dependency from src/app.py, as a pure
function from the session and the task object to the updated task object
and the returned boolean.  The guard `if task.dependency_id:` uses Python
truthiness, so a dependency_id of 0 is treated like None. -/
def adjust_start_date_based_on_dependency (σ : Store) (task : Task) : Task × Bool :=
  match task.dependency_id with
  | none => (task, false)
  | some d =>
    if d = 0 then (task, false)
    else
      match getTask σ d with
      | none => (task, false)
      | some parent =>
        let parent_end_date := parent.start_date + parent.duration_days
        if task.start_date < parent_end_date then
          ({ task with start_date := parent_end_date }, true)
        else (task, false)

/-- Running the adjustment rule on the session row with id i and writing
the mutated start_date back into the session (the ORM identity map makes
the in-place mutation of the Python object a session update). -/
def adjustInStore (σ : Store) (i : Nat) : Store × Bool :=
  match getTask σ i with
  | none => (σ, false)
  | some t =>
    let r := adjust_start_date_based_on_dependency σ t
    if r.2 then (setStart σ i r.1.start_date, true) else (σ, false)

/-- Task.query.filter_by(dependency_id=i).all(), projected to ids, in
session order. -/
def followerIds (σ : Store) (i : Nat) : List Nat :=
  (σ.filter (fun t => decide (t.dependency_id = some i))).map (fun t => t.id)

/-- The follower loop of cascade_updates: for each follower id run the
adjustment rule and, if the follower moved, recurse (the recursive call is
the rec argument).  none aborts the whole walk (depth bound exceeded). -/
def runFollowers (rec : Store → Nat → Option Store) : Store → List Nat → Option Store
  | σ, [] => some σ
  | σ, fid :: rest =>
    match adjustInStore σ fid with
    | (σ₂, true) =>
      match rec σ₂ fid with
      | none => none
      | some σ₃ => runFollowers rec σ₃ rest
    | (σ₂, false) => runFollowers rec σ₂ rest

/-- cascade_updates from src/app.py.  fuel bounds the recursion depth;
the Python original has no such bound, so a result of none for every fuel
means the Python recursion never terminates. -/
def cascade_updates : Nat → Store → Nat → Option Store
  | 0, _, _ => none
  | fuel + 1, σ, task_id =>
    match getTask σ task_id with
    | none => some σ
    | some task => runFollowers (cascade_updates fuel) σ (followerIds σ task.id)

/-- A cascade trace: the follower ids examined by the walk, in order,
each paired with the boolean the adjustment rule reported for it. -/
abbrev Log := List (Nat × Bool)

/-- Instrumented follower loop: same store behaviour as runFollowers but
also records which followers were examined and whether each moved. -/
def runFollowersT (rec : Store → Nat → Option (Store × Log)) :
    Store → List Nat → Option (Store × Log)
  | σ, [] => some (σ, [])
  | σ, fid :: rest =>
    match adjustInStore σ fid with
    | (σ₂, true) =>
      match rec σ₂ fid with
      | none => none
      | some (σ₃, log₁) =>
        match runFollowersT rec σ₃ rest with
        | none => none
        | some (σ₄, log₂) => some (σ₄, (fid, true) :: (log₁ ++ log₂))
    | (σ₂, false) =>
      match runFollowersT rec σ₂ rest with
      | none => none
      | some (σ₄, log₂) => some (σ₄, (fid, false) :: log₂)

/-- Instrumented cascade_updates: identical store behaviour, plus the
trace of examined followers. -/
def cascadeT : Nat → Store → Nat → Option (Store × Log)
  | 0, _, _ => none
  | fuel + 1, σ, task_id =>
    match getTask σ task_id with
    | none => some (σ, [])
    | some task => runFollowersT (cascadeT fuel) σ (followerIds σ task.id)

/-- The start_date stored for id x, if the row exists. -/
def startOf (σ : Store) (x : Nat) : Option Int :=
  (getTask σ x).map (fun t => t.start_date)

/-- The skeleton of a row: every field except start_date (start_date is
normalised to 0).  The cascade only ever rewrites start_date, so the
skeleton of the store is an invariant of the walk. -/
def skel (t : Task) : Task :=
  { t with start_date := 0 }

/-- Two stores with the same rows up to start_date. -/
def sameSkel (σ τ : Store) : Prop :=
  τ.map skel = σ.map skel

/-- Follower edge of the dependency graph: Edge σ y x holds when the row
x declares y as its predecessor, i.e. x is returned by the follower query
on y. -/
def Edge (σ : Store) (y x : Nat) : Prop :=
  x ∈ followerIds σ y

instance (σ : Store) (y x : Nat) : Decidable (Edge σ y x) := by
  unfold Edge; infer_instance

/-- Primary keys are unique (true of the SQLite table). -/
def UniqueIds (σ : Store) : Prop :=
  (σ.map (fun t => t.id)).Nodup

/-- Primary keys are positive (SQLite rowids start at 1); in particular no
row has id 0, the value Python truthiness conflates with None. -/
def ValidIds (σ : Store) : Prop :=
  ∀ t ∈ σ, t.id ≠ 0

/-- rank is a topological numbering of the dependency edges: every edge
climbs strictly in rank.  Such a numbering exists exactly when the
dependency graph is a forest (each task already has at most one
predecessor by the data model). -/
def Ranked (σ : Store) (rank : Nat → Nat) : Prop :=
  ∀ t ∈ σ, ∀ d, t.dependency_id = some d → rank d < rank t.id

/-- The dependency invariant of the spec at id x: if the row exists, has a
predecessor reference, and the predecessor is present, then the task
starts no earlier than the predecessor ends. -/
def consistentB (σ : Store) (x : Nat) : Bool :=
  match getTask σ x with
  | none => true
  | some t =>
    match t.dependency_id with
    | none => true
    | some d =>
      match getTask σ d with
      | none => true
      | some p => decide (endDate p ≤ t.start_date)

instance (σ : Store) : Decidable (UniqueIds σ) := by
  unfold UniqueIds; infer_instance

instance (σ : Store) : Decidable (ValidIds σ) := by
  unfold ValidIds; infer_instance

instance (σ : Store) (rank : Nat → Nat) : Decidable (Ranked σ rank) :=
  decidable_of_iff
    (∀ t ∈ σ, (match t.dependency_id with
      | none => true
      | some d => decide (rank d < rank t.id)) = true) (by
    unfold Ranked
    constructor
    · intro h t ht d hd
      have h2 := h t ht
      rw [hd] at h2
      simpa using h2
    · intro h t ht
      cases hd : t.dependency_id with
      | none => rfl
      | some d => simpa using h t ht d hd)

/-- Ids that carry a dependency reference at all; every target of an Edge
is among them. -/
def depTargets (σ : Store) : List Nat :=
  (σ.filter (fun t => t.dependency_id.isSome)).map (fun t => t.id)

/-- add_task_api from src/app.py, restricted to the scheduling state: the
new row t is added to the session, then the adjustment rule runs on it,
then the session is committed.  No cascade is run. -/
def add_task_api (σ : Store) (t : Task) : Store :=
  (adjustInStore (σ ++ [t]) t.id).1

/-- Overwriting the editable scheduling fields of row i, as
update_task_api does before running the scheduling logic. -/
def setFields (σ : Store) (i : Nat) (s dur : Int) (dep : Option Nat) : Store :=
  σ.map (fun t =>
    if t.id = i then
      { t with start_date := s, duration_days := dur, dependency_id := dep }
    else t)

/-- update_task_api from src/app.py, restricted to the scheduling state:
if the row exists, overwrite its fields, run the adjustment rule on it,
then run cascade_updates from its id.  Returns none when the row is
missing (success False) or the cascade exceeds the depth bound. -/
def update_task_api (fuel : Nat) (σ : Store) (i : Nat)
    (s dur : Int) (dep : Option Nat) : Option Store :=
  match getTask σ i with
  | none => none
  | some _ =>
    let σ₁ := setFields σ i s dur dep
    let σ₂ := (adjustInStore σ₁ i).1
    cascade_updates fuel σ₂ i

/-- delete_task_api from src/app.py, restricted to the scheduling state:
if the row exists it is removed; nothing else is touched. -/
def delete_task_api (σ : Store) (i : Nat) : Store × Bool :=
  match getTask σ i with
  | none => (σ, false)
  | some _ => (σ.filter (fun t => decide (t.id ≠ i)), true)

/-- Modelled from the spec (section 4.3 and 6): the apply_and_cascade
pipeline the spec prescribes for create and edit alike: run the
Adjustment Rule on the task itself, persist, then run the Cascade Walker
rooted at the task id. -/
def spec_apply_and_cascade (fuel : Nat) (σ : Store) (i : Nat) : Option Store :=
  cascade_updates fuel ((adjustInStore σ i).1) i

/-! ## Basic lemmas about the store operations -/

theorem getTask_eq_some {σ : Store} {i : Nat} {t : Task} (h : getTask σ i = some t) :
    t ∈ σ ∧ t.id = i := by
  refine ⟨List.mem_of_find?_eq_some h, ?_⟩
  have := List.find?_some h
  simpa using this

theorem eq_of_mem_of_id_eq {σ : Store} (hu : UniqueIds σ) {t u : Task}
    (ht : t ∈ σ) (hu' : u ∈ σ) (h : t.id = u.id) : t = u := by
  induction σ with
  | nil => cases ht
  | cons a σ' ih =>
    have hnd : a.id ∉ σ'.map (fun t => t.id) ∧ (σ'.map (fun t => t.id)).Nodup := by
      simpa [UniqueIds] using hu
    rcases List.mem_cons.mp ht with rfl | ht' <;>
      rcases List.mem_cons.mp hu' with rfl | hu''
    · rfl
    · exact absurd (h ▸ List.mem_map_of_mem (fun t => t.id) hu'') hnd.1
    · exact absurd (h ▸ List.mem_map_of_mem (fun t => t.id) ht') hnd.1
    · exact ih hnd.2 ht' hu''

theorem getTask_of_mem {σ : Store} (hu : UniqueIds σ) {t : Task} (ht : t ∈ σ) :
    getTask σ t.id = some t := by
  cases h : getTask σ t.id with
  | none =>
    exfalso
    have := List.find?_eq_none.mp h t ht
    simp at this
  | some u =>
    obtain ⟨hmem, hid⟩ := getTask_eq_some h
    exact congrArg some (eq_of_mem_of_id_eq hu hmem ht hid)

theorem mem_followerIds {σ : Store} {y x : Nat} :
    x ∈ followerIds σ y ↔ ∃ t ∈ σ, t.dependency_id = some y ∧ t.id = x := by
  simp only [followerIds, List.mem_map, List.mem_filter, decide_eq_true_eq]
  constructor
  · rintro ⟨t, ⟨ht, hd⟩, rfl⟩; exact ⟨t, ht, hd, rfl⟩
  · rintro ⟨t, ht, hd, rfl⟩; exact ⟨t, ⟨ht, hd⟩, rfl⟩

theorem find?_map_pres (σ : List Task) (f : Task → Task) (hf : ∀ t, (f t).id = t.id)
    (j : Nat) :
    (σ.map f).find? (fun t => decide (t.id = j)) =
      (σ.find? (fun t => decide (t.id = j))).map f := by
  induction σ with
  | nil => rfl
  | cons a σ' ih =>
    by_cases hj : a.id = j
    · rw [List.map_cons, List.find?_cons_of_pos, List.find?_cons_of_pos] <;>
        simp [hf, hj]
    · rw [List.map_cons, List.find?_cons_of_neg, List.find?_cons_of_neg, ih] <;>
        simp [hf, hj]

theorem getTask_setStart (σ : Store) (i : Nat) (v : Int) (j : Nat) :
    getTask (setStart σ i v) j =
      (getTask σ j).map (fun t => if t.id = i then { t with start_date := v } else t) := by
  unfold getTask setStart
  refine find?_map_pres σ _ ?_ j
  intro t
  by_cases h : t.id = i <;> simp [h]

theorem getTask_setStart_ne {σ : Store} {i j : Nat} (v : Int) (h : j ≠ i) :
    getTask (setStart σ i v) j = getTask σ j := by
  rw [getTask_setStart]
  cases hg : getTask σ j with
  | none => rfl
  | some t =>
    obtain ⟨-, hid⟩ := getTask_eq_some hg
    simp [hid, h]

theorem getTask_setStart_self {σ : Store} {i : Nat} {t : Task} (v : Int)
    (h : getTask σ i = some t) :
    getTask (setStart σ i v) i = some { t with start_date := v } := by
  rw [getTask_setStart, h]
  obtain ⟨-, hid⟩ := getTask_eq_some h
  simp [hid]

/-! ## Skeleton lemmas -/

theorem skel_eq_iff {u t : Task} :
    skel u = skel t ↔
      u.id = t.id ∧ u.duration_days = t.duration_days ∧
      u.dependency_id = t.dependency_id ∧ u.is_completed = t.is_completed := by
  cases u; cases t; simp [skel, Task.mk.injEq, and_assoc]

theorem task_eq_of_skel {u t : Task} (h : skel u = skel t)
    (h2 : u.start_date = t.start_date) : u = t := by
  cases u; cases t
  obtain ⟨h1, h3, h4, h5⟩ := skel_eq_iff.mp h
  simp_all

theorem sameSkel_refl (σ : Store) : sameSkel σ σ := rfl

theorem sameSkel_trans {σ τ ρ : Store} (h1 : sameSkel σ τ) (h2 : sameSkel τ ρ) :
    sameSkel σ ρ := by
  unfold sameSkel at *
  rw [h2, h1]

theorem sameSkel_setStart (σ : Store) (i : Nat) (v : Int) :
    sameSkel σ (setStart σ i v) := by
  unfold sameSkel setStart
  rw [List.map_map]
  refine List.map_congr_left ?_
  intro t _
  by_cases h : t.id = i <;> simp [skel, h]

theorem getTask_skel : ∀ σ τ : Store, sameSkel σ τ → ∀ j : Nat,
    (getTask τ j).map skel = (getTask σ j).map skel := by
  intro σ
  induction σ with
  | nil =>
    intro τ h j
    have : τ = [] := by simpa [sameSkel] using h
    subst this; rfl
  | cons t σ' ih =>
    intro τ h j
    cases τ with
    | nil => simp [sameSkel] at h
    | cons u τ' =>
      have h' : skel u = skel t ∧ τ'.map skel = σ'.map skel := by
        simpa [sameSkel] using h
      have hid : u.id = t.id := (skel_eq_iff.mp h'.1).1
      by_cases hj : t.id = j
      · simp [getTask, List.find?_cons, hid, hj, h'.1]
      · simpa [getTask, List.find?_cons, hid, hj] using ih τ' h'.2 j

theorem followerIds_sameSkel : ∀ σ τ : Store, sameSkel σ τ → ∀ y : Nat,
    followerIds τ y = followerIds σ y := by
  intro σ
  induction σ with
  | nil =>
    intro τ h y
    have : τ = [] := by simpa [sameSkel] using h
    subst this; rfl
  | cons t σ' ih =>
    intro τ h y
    cases τ with
    | nil => simp [sameSkel] at h
    | cons u τ' =>
      have h' : skel u = skel t ∧ τ'.map skel = σ'.map skel := by
        simpa [sameSkel] using h
      obtain ⟨hid, -, hdep, -⟩ := skel_eq_iff.mp h'.1
      have ihr := ih τ' h'.2 y
      unfold followerIds at ihr ⊢
      rw [List.filter_cons, List.filter_cons, hdep]
      by_cases hy : t.dependency_id = some y
      · simp [hy, hid, ihr]
      · simp [hy, ihr]

theorem edge_sameSkel {σ τ : Store} (h : sameSkel σ τ) {y x : Nat} :
    Edge τ y x ↔ Edge σ y x := by
  unfold Edge
  rw [followerIds_sameSkel σ τ h]

theorem mem_skel_of_mem {σ τ : Store} (h : sameSkel σ τ) {u : Task} (hu : u ∈ τ) :
    ∃ t ∈ σ, skel t = skel u := by
  have : skel u ∈ σ.map skel := by
    rw [← h]
    exact List.mem_map_of_mem skel hu
  obtain ⟨t, ht, hts⟩ := List.mem_map.mp this
  exact ⟨t, ht, hts⟩

theorem uniqueIds_sameSkel {σ τ : Store} (h : sameSkel σ τ) (hu : UniqueIds σ) :
    UniqueIds τ := by
  unfold UniqueIds at *
  have hmap : τ.map (fun t => t.id) = σ.map (fun t => t.id) := by
    have := congrArg (List.map (fun t => t.id)) h
    simpa [List.map_map, skel] using this
  rw [hmap]; exact hu

theorem validIds_sameSkel {σ τ : Store} (h : sameSkel σ τ) (hv : ValidIds σ) :
    ValidIds τ := by
  intro u hu
  obtain ⟨t, ht, hts⟩ := mem_skel_of_mem h hu
  have : t.id = u.id := (skel_eq_iff.mp hts).1
  rw [← this]; exact hv t ht

theorem ranked_sameSkel {σ τ : Store} {rank : Nat → Nat} (h : sameSkel σ τ)
    (hr : Ranked σ rank) : Ranked τ rank := by
  intro u hu d hd
  obtain ⟨t, ht, hts⟩ := mem_skel_of_mem h hu
  obtain ⟨hid, -, hdep, -⟩ := skel_eq_iff.mp hts
  rw [← hid]
  exact hr t ht d (by rw [hdep, hd])

theorem getTask_eq_of_skel_start {σ τ : Store} (h : sameSkel σ τ) {j : Nat}
    (h2 : startOf τ j = startOf σ j) : getTask τ j = getTask σ j := by
  have hs := getTask_skel σ τ h j
  cases hσ : getTask σ j with
  | none =>
    rw [hσ] at hs
    cases hτ : getTask τ j with
    | none => rfl
    | some u => rw [hτ] at hs; simp at hs
  | some t =>
    rw [hσ] at hs
    cases hτ : getTask τ j with
    | none => rw [hτ] at hs; simp at hs
    | some u =>
      rw [hτ] at hs
      simp only [Option.map] at hs
      replace hs := Option.some.inj hs
      unfold startOf at h2
      rw [hσ, hτ] at h2
      simp only [Option.map] at h2
      replace h2 := Option.some.inj h2
      exact congrArg some (task_eq_of_skel hs h2)

theorem startOf_eq_of_getTask {σ τ : Store} {j : Nat}
    (h : getTask τ j = getTask σ j) : startOf τ j = startOf σ j := by
  unfold startOf; rw [h]

/-! ## Rank and reachability lemmas (forest topology) -/

theorem rank_lt_of_edge {σ : Store} {rank : Nat → Nat} (hr : Ranked σ rank)
    {y x : Nat} (h : Edge σ y x) : rank y < rank x := by
  obtain ⟨t, ht, hdep, hid⟩ := mem_followerIds.mp h
  rw [← hid]
  exact hr t ht y hdep

theorem rank_lt_of_tg {σ : Store} {rank : Nat → Nat} (hr : Ranked σ rank)
    {y x : Nat} (h : Relation.TransGen (Edge σ) y x) : rank y < rank x := by
  induction h with
  | single h1 => exact rank_lt_of_edge hr h1
  | tail _ h2 ih => exact lt_trans ih (rank_lt_of_edge hr h2)

theorem rank_le_of_rtg {σ : Store} {rank : Nat → Nat} (hr : Ranked σ rank)
    {y x : Nat} (h : Relation.ReflTransGen (Edge σ) y x) : rank y ≤ rank x := by
  rcases Relation.reflTransGen_iff_eq_or_transGen.mp h with rfl | htg
  · exact le_refl _
  · exact le_of_lt (rank_lt_of_tg hr htg)

theorem not_tg_self {σ : Store} {rank : Nat → Nat} (hr : Ranked σ rank) (x : Nat) :
    ¬ Relation.TransGen (Edge σ) x x := by
  intro h
  exact lt_irrefl _ (rank_lt_of_tg hr h)

theorem parent_unique {σ : Store} (hu : UniqueIds σ) {p q x : Nat}
    (h1 : Edge σ p x) (h2 : Edge σ q x) : p = q := by
  obtain ⟨t, ht, hdt, hit⟩ := mem_followerIds.mp h1
  obtain ⟨u, hu', hdu, hiu⟩ := mem_followerIds.mp h2
  have : t = u := eq_of_mem_of_id_eq hu ht hu' (hit.trans hiu.symm)
  subst this
  rw [hdt] at hdu
  exact Option.some.inj hdu

theorem tg_last {σ : Store} {f x : Nat} (h : Relation.TransGen (Edge σ) f x) :
    ∃ p, Relation.ReflTransGen (Edge σ) f p ∧ Edge σ p x :=
  Relation.TransGen.tail'_iff.mp h

/-- In an in-degree-at-most-one graph, two strict ancestors of the same
node are comparable. -/
theorem tg_comparable {σ : Store} {rank : Nat → Nat} (hu : UniqueIds σ)
    (hr : Ranked σ rank) :
    ∀ n x f g, rank x ≤ n → Relation.TransGen (Edge σ) f x →
      Relation.TransGen (Edge σ) g x →
      f = g ∨ Relation.TransGen (Edge σ) f g ∨ Relation.TransGen (Edge σ) g f := by
  intro n
  induction n with
  | zero =>
    intro x f g hn hf hg
    obtain ⟨p, hfp, hpx⟩ := tg_last hf
    have := rank_lt_of_edge hr hpx
    omega
  | succ n ih =>
    intro x f g hn hf hg
    obtain ⟨p, hfp, hpx⟩ := tg_last hf
    obtain ⟨q, hgq, hqx⟩ := tg_last hg
    have hpq : p = q := parent_unique hu hpx hqx
    subst hpq
    rcases Relation.reflTransGen_iff_eq_or_transGen.mp hfp with rfl | hfp'
    · rcases Relation.reflTransGen_iff_eq_or_transGen.mp hgq with h | h
      · exact Or.inl h
      · exact Or.inr (Or.inr h)
    · rcases Relation.reflTransGen_iff_eq_or_transGen.mp hgq with rfl | hgq'
      · exact Or.inr (Or.inl hfp')
      · have hpn : rank p ≤ n := by
          have := rank_lt_of_edge hr hpx
          omega
        exact ih p f g hpn hfp' hgq'

/-- Distinct followers of the same node are incomparable. -/
theorem siblings_not_tg {σ : Store} {rank : Nat → Nat} (hu : UniqueIds σ)
    (hr : Ranked σ rank) {y f g : Nat} (hf : Edge σ y f) (hg : Edge σ y g)
    (_hne : f ≠ g) : ¬ Relation.TransGen (Edge σ) f g := by
  intro h
  obtain ⟨p, hfp, hpg⟩ := tg_last h
  have hpy : p = y := parent_unique hu hpg hg
  subst hpy
  have h1 : rank f ≤ rank p := rank_le_of_rtg hr hfp
  have h2 : rank p < rank f := rank_lt_of_edge hr hf
  omega

/-- Subtrees of distinct followers of the same node are disjoint. -/
theorem subtree_disjoint {σ : Store} {rank : Nat → Nat} (hu : UniqueIds σ)
    (hr : Ranked σ rank) {y f g x : Nat} (hf : Edge σ y f) (hg : Edge σ y g)
    (hne : f ≠ g) (h1 : Relation.ReflTransGen (Edge σ) f x)
    (h2 : Relation.ReflTransGen (Edge σ) g x) : False := by
  rcases Relation.reflTransGen_iff_eq_or_transGen.mp h1 with rfl | h1'
  · rcases Relation.reflTransGen_iff_eq_or_transGen.mp h2 with h | h
    · exact hne h
    · exact siblings_not_tg hu hr hg hf (Ne.symm hne) h
  · rcases Relation.reflTransGen_iff_eq_or_transGen.mp h2 with rfl | h2'
    · exact siblings_not_tg hu hr hf hg hne h1'
    · rcases tg_comparable hu hr (rank x) x f g (le_refl _) h1' h2' with h | h | h
      · exact hne h
      · exact siblings_not_tg hu hr hf hg hne h
      · exact siblings_not_tg hu hr hg hf (Ne.symm hne) h

/-- Every Edge target carries a dependency reference. -/
theorem mem_depTargets_of_edge {σ : Store} {p x : Nat} (h : Edge σ p x) :
    x ∈ depTargets σ := by
  obtain ⟨t, ht, hdep, hid⟩ := mem_followerIds.mp h
  unfold depTargets
  refine List.mem_map.mpr ⟨t, List.mem_filter.mpr ⟨ht, ?_⟩, hid⟩
  simp [hdep]

theorem followerIds_nodup {σ : Store} (hu : UniqueIds σ) (y : Nat) :
    (followerIds σ y).Nodup := by
  unfold followerIds
  have hsub : List.Sublist
      ((σ.filter (fun t => decide (t.dependency_id = some y))).map (fun t => t.id))
      (σ.map (fun t => t.id)) :=
    (List.filter_sublist σ).map (fun t => t.id)
  exact hu.sublist hsub

/-! ## Elimination lemmas for the adjustment step -/

theorem adjustInStore_false {σ : Store} {i : Nat} {σ₂ : Store}
    (h : adjustInStore σ i = (σ₂, false)) : σ₂ = σ := by
  rcases hg : getTask σ i with _ | t
  · simp only [adjustInStore, hg] at h
    exact (Prod.mk.injEq _ _ _ _ ▸ h).1.symm
  · simp only [adjustInStore, hg] at h
    by_cases hm : (adjust_start_date_based_on_dependency σ t).2 = true
    · rw [if_pos hm] at h
      simp at h
    · rw [if_neg hm] at h
      exact (Prod.mk.injEq _ _ _ _ ▸ h).1.symm

theorem adjustInStore_true {σ : Store} {i : Nat} {σ₂ : Store}
    (h : adjustInStore σ i = (σ₂, true)) :
    ∃ t d p, getTask σ i = some t ∧ t.dependency_id = some d ∧ d ≠ 0 ∧
      getTask σ d = some p ∧ t.start_date < endDate p ∧
      σ₂ = setStart σ i (endDate p) := by
  rcases hg : getTask σ i with _ | t
  · simp only [adjustInStore, hg] at h
    simp at h
  · simp only [adjustInStore, hg] at h
    rcases hd : t.dependency_id with _ | d
    · simp only [adjust_start_date_based_on_dependency, hd] at h
      simp at h
    · simp only [adjust_start_date_based_on_dependency, hd] at h
      by_cases h0 : d = 0
      · rw [if_pos h0] at h
        simp at h
      · rw [if_neg h0] at h
        rcases hp : getTask σ d with _ | p
        · simp only [hp] at h
          simp at h
        · simp only [hp] at h
          by_cases hlt : t.start_date < p.start_date + p.duration_days
          · rw [if_pos hlt] at h
            simp only [if_true] at h
            refine ⟨t, d, p, rfl, hd, h0, hp, hlt, ?_⟩
            have h1 := congrArg Prod.fst h
            simpa [endDate] using h1.symm
          · rw [if_neg hlt] at h
            simp at h

theorem adjustInStore_of_consistent {σ : Store} {i : Nat} {t p : Task} {d : Nat}
    (hg : getTask σ i = some t) (hd : t.dependency_id = some d)
    (hp : getTask σ d = some p) (hge : endDate p ≤ t.start_date) :
    adjustInStore σ i = (σ, false) := by
  simp only [adjustInStore, hg, adjust_start_date_based_on_dependency, hd]
  by_cases h0 : d = 0
  · rw [if_pos h0]
    simp
  · rw [if_neg h0]
    simp only [hp]
    rw [if_neg (show ¬ t.start_date < p.start_date + p.duration_days by
      unfold endDate at hge; omega)]
    simp

/-! ## Agreement of the plain and instrumented walkers -/

theorem runFollowers_agree {rec₁ : Store → Nat → Option Store}
    {rec₂ : Store → Nat → Option (Store × Log)}
    (h : ∀ σ i, rec₁ σ i = (rec₂ σ i).map Prod.fst) :
    ∀ ids σ, runFollowers rec₁ σ ids = (runFollowersT rec₂ σ ids).map Prod.fst := by
  intro ids
  induction ids with
  | nil => intro σ; rfl
  | cons fid rest ih =>
    intro σ
    rcases ha : adjustInStore σ fid with ⟨σ₂, m⟩
    cases m
    · simp only [runFollowers, runFollowersT, ha]
      rw [ih σ₂]
      rcases runFollowersT rec₂ σ₂ rest with _ | ⟨σ₄, log₂⟩ <;> simp
    · simp only [runFollowers, runFollowersT, ha]
      rw [h σ₂ fid]
      rcases rec₂ σ₂ fid with _ | ⟨σ₃, log₁⟩
      · simp
      · simp only [Option.map]
        rw [ih σ₃]
        rcases runFollowersT rec₂ σ₃ rest with _ | ⟨σ₄, log₂⟩ <;> simp

theorem cascade_agree : ∀ fuel σ r,
    cascade_updates fuel σ r = (cascadeT fuel σ r).map Prod.fst := by
  intro fuel
  induction fuel with
  | zero => intro σ r; rfl
  | succ fuel ih =>
    intro σ r
    rcases hg : getTask σ r with _ | task
    · simp only [cascade_updates, cascadeT, hg]; rfl
    · simp only [cascade_updates, cascadeT, hg]
      exact runFollowers_agree ih (followerIds σ task.id) σ

theorem sameSkel_symm {σ τ : Store} (h : sameSkel σ τ) : sameSkel τ σ :=
  h.symm

theorem getTask_some_of_skel {σ τ : Store} (h : sameSkel σ τ) {x : Nat} {t : Task}
    (hg : getTask σ x = some t) : ∃ u, getTask τ x = some u ∧ skel u = skel t := by
  have hs := getTask_skel σ τ h x
  rw [hg] at hs
  cases hτ : getTask τ x with
  | none => rw [hτ] at hs; simp at hs
  | some u =>
    rw [hτ] at hs
    simp only [Option.map] at hs
    exact ⟨u, rfl, Option.some.inj hs⟩

/-! ## The master lemma: structural facts about one cascade run.

CascProp collects what is true of a completed (instrumented) cascade from
root r: the skeleton is preserved; any id whose start changed is logged as
moved; every logged id is a follower of the root or of a logged moved id;
every logged id is strictly reachable from the root; if the root row
exists all its followers are logged; the followers of every logged moved
id are logged; start dates never decrease; and a logged moved id strictly
increased. -/

def CascProp (σ : Store) (r : Nat) (out : Store × Log) : Prop :=
  sameSkel σ out.1
  ∧ (∀ x, startOf out.1 x ≠ startOf σ x → (x, true) ∈ out.2)
  ∧ (∀ x m, (x, m) ∈ out.2 → Edge σ r x ∨ ∃ z, (z, true) ∈ out.2 ∧ Edge σ z x)
  ∧ (∀ x m, (x, m) ∈ out.2 → Relation.TransGen (Edge σ) r x)
  ∧ ((getTask σ r).isSome → ∀ x, Edge σ r x → ∃ m, (x, m) ∈ out.2)
  ∧ (∀ z, (z, true) ∈ out.2 → ∀ x, Edge σ z x → ∃ m, (x, m) ∈ out.2)
  ∧ (∀ x t t', getTask σ x = some t → getTask out.1 x = some t' →
      t.start_date ≤ t'.start_date)
  ∧ (∀ x, (x, true) ∈ out.2 → ∃ t t', getTask σ x = some t ∧
      getTask out.1 x = some t' ∧ t.start_date < t'.start_date)

/-- The corresponding facts for the follower loop run on a list of ids. -/
def ListProp (σ : Store) (ids : List Nat) (out : Store × Log) : Prop :=
  sameSkel σ out.1
  ∧ (∀ x, startOf out.1 x ≠ startOf σ x → (x, true) ∈ out.2)
  ∧ (∀ x m, (x, m) ∈ out.2 → x ∈ ids ∨ ∃ z, (z, true) ∈ out.2 ∧ Edge σ z x)
  ∧ (∀ x m, (x, m) ∈ out.2 → ∃ f ∈ ids, Relation.ReflTransGen (Edge σ) f x)
  ∧ (∀ x ∈ ids, ∃ m, (x, m) ∈ out.2)
  ∧ (∀ z, (z, true) ∈ out.2 → ∀ x, Edge σ z x → ∃ m, (x, m) ∈ out.2)
  ∧ (∀ x t t', getTask σ x = some t → getTask out.1 x = some t' →
      t.start_date ≤ t'.start_date)
  ∧ (∀ x, (x, true) ∈ out.2 → ∃ t t', getTask σ x = some t ∧
      getTask out.1 x = some t' ∧ t.start_date < t'.start_date)

theorem runFollowersT_master {rec : Store → Nat → Option (Store × Log)}
    (hrec : ∀ σ r out, rec σ r = some out → CascProp σ r out) :
    ∀ ids σ out, runFollowersT rec σ ids = some out → ListProp σ ids out := by
  intro ids
  induction ids with
  | nil =>
    intro σ out h
    simp only [runFollowersT] at h
    have hout : out = (σ, []) := (Option.some.inj h).symm
    subst hout
    refine ⟨sameSkel_refl σ, ?_, ?_, ?_, ?_, ?_, ?_, ?_⟩
    · intro x hx; exact absurd rfl hx
    · intro x m hm; simp at hm
    · intro x m hm; simp at hm
    · intro x hx; simp at hx
    · intro z hz; simp at hz
    · intro x t t' h1 h2; rw [h1] at h2; rw [Option.some.inj h2]
    · intro x hx; simp at hx
  | cons fid rest ih =>
    intro σ out h
    rcases ha : adjustInStore σ fid with ⟨σ₂, m⟩
    cases m
    · -- the follower did not move: the store is unchanged and the walk
      -- continues with the remaining siblings only
      have hE : σ₂ = σ := adjustInStore_false ha
      subst hE
      simp only [runFollowersT, ha] at h
      rcases hrest : runFollowersT rec σ₂ rest with _ | out₂
      · simp only [hrest] at h; cases h
      · rcases out₂ with ⟨σ₄, log₂⟩
        simp only [hrest] at h
        have hout : out = (σ₄, (fid, false) :: log₂) := (Option.some.inj h).symm
        subst hout
        obtain ⟨L1, L2, L3, L4, L5, L6, L7, L8⟩ := ih σ₂ (σ₄, log₂) hrest
        refine ⟨L1, ?_, ?_, ?_, ?_, ?_, L7, ?_⟩
        · intro x hx
          exact List.mem_cons_of_mem _ (L2 x hx)
        · intro x m hm
          rcases List.mem_cons.mp hm with heq | hm'
          · injection heq with h1 h2
            subst h1
            exact Or.inl (List.mem_cons_self _ _)
          · rcases L3 x m hm' with h1 | ⟨z, hz, he⟩
            · exact Or.inl (List.mem_cons_of_mem _ h1)
            · exact Or.inr ⟨z, List.mem_cons_of_mem _ hz, he⟩
        · intro x m hm
          rcases List.mem_cons.mp hm with heq | hm'
          · injection heq with h1 h2
            subst h1
            exact ⟨x, List.mem_cons_self _ _, Relation.ReflTransGen.refl⟩
          · obtain ⟨f, hf, hrtg⟩ := L4 x m hm'
            exact ⟨f, List.mem_cons_of_mem _ hf, hrtg⟩
        · intro x hx
          rcases List.mem_cons.mp hx with rfl | hx'
          · exact ⟨false, List.mem_cons_self _ _⟩
          · obtain ⟨m, hm⟩ := L5 x hx'
            exact ⟨m, List.mem_cons_of_mem _ hm⟩
        · intro z hz x he
          have hz' : (z, true) ∈ log₂ := by
            rcases List.mem_cons.mp hz with heq | h'
            · injection heq with h1 h2; cases h2
            · exact h'
          obtain ⟨m', hm'⟩ := L6 z hz' x he
          exact ⟨m', List.mem_cons_of_mem _ hm'⟩
        · intro x hx
          have hx' : (x, true) ∈ log₂ := by
            rcases List.mem_cons.mp hx with heq | h'
            · injection heq with h1 h2; cases h2
            · exact h'
          exact L8 x hx'
    · -- the follower moved: its start was pushed to the parent end, the
      -- walk recursed below it, then continued with the remaining siblings
      obtain ⟨tf, d, p, hgf, hdf, h0, hp, hlt, hσ₂⟩ := adjustInStore_true ha
      simp only [runFollowersT, ha] at h
      rcases hrec₁ : rec σ₂ fid with _ | out₁
      · simp only [hrec₁] at h; cases h
      · rcases out₁ with ⟨σ₃, log₁⟩
        simp only [hrec₁] at h
        rcases hrest : runFollowersT rec σ₃ rest with _ | out₂
        · simp only [hrest] at h; cases h
        · rcases out₂ with ⟨σ₄, log₂⟩
          simp only [hrest] at h
          have hout : out = (σ₄, (fid, true) :: (log₁ ++ log₂)) := (Option.some.inj h).symm
          subst hout
          obtain ⟨C1, C2, C3, C4, C5, C6, C7, C8⟩ := hrec σ₂ fid (σ₃, log₁) hrec₁
          obtain ⟨L1, L2, L3, L4, L5, L6, L7, L8⟩ := ih σ₃ (σ₄, log₂) hrest
          have hsk2 : sameSkel σ σ₂ := hσ₂ ▸ sameSkel_setStart σ fid (endDate p)
          have hsk3 : sameSkel σ σ₃ := sameSkel_trans hsk2 C1
          have hE2 : ∀ y x, Edge σ₂ y x ↔ Edge σ y x := fun y x => edge_sameSkel hsk2
          have hE3 : ∀ y x, Edge σ₃ y x ↔ Edge σ y x := fun y x => edge_sameSkel hsk3
          have memhead : (fid, true) ∈ (fid, true) :: (log₁ ++ log₂) :=
            List.mem_cons_self _ _
          have memlift1 : ∀ q : Nat × Bool, q ∈ log₁ →
              q ∈ (fid, true) :: (log₁ ++ log₂) :=
            fun q hq => List.mem_cons_of_mem _ (List.mem_append.mpr (Or.inl hq))
          have memlift2 : ∀ q : Nat × Bool, q ∈ log₂ →
              q ∈ (fid, true) :: (log₁ ++ log₂) :=
            fun q hq => List.mem_cons_of_mem _ (List.mem_append.mpr (Or.inr hq))
          have hgf₂ : getTask σ₂ fid = some { tf with start_date := endDate p } :=
            hσ₂ ▸ getTask_setStart_self (endDate p) hgf
          have mono12 : ∀ x t t', getTask σ x = some t → getTask σ₂ x = some t' →
              t.start_date ≤ t'.start_date := by
            intro x t t' h1 h2
            by_cases hx : x = fid
            · subst hx
              rw [h1] at hgf
              have ht : t = tf := Option.some.inj hgf
              rw [hgf₂] at h2
              have h2' := Option.some.inj h2
              rw [← h2', ht]
              simpa using le_of_lt hlt
            · rw [hσ₂, getTask_setStart_ne _ hx, h1] at h2
              rw [Option.some.inj h2]
          refine ⟨sameSkel_trans hsk3 L1, ?_, ?_, ?_, ?_, ?_, ?_, ?_⟩
          · -- a changed id is logged as moved
            intro x hx
            by_cases h34 : startOf σ₄ x = startOf σ₃ x
            · by_cases h23 : startOf σ₃ x = startOf σ₂ x
              · have h2x : startOf σ₂ x ≠ startOf σ x := by
                  intro he
                  exact hx ((h34.trans h23).trans he)
                have hxf : x = fid := by
                  by_contra hne
                  exact h2x (hσ₂ ▸ startOf_eq_of_getTask (getTask_setStart_ne _ hne))
                subst hxf
                exact memhead
              · exact memlift1 _ (C2 x h23)
            · exact memlift2 _ (L2 x h34)
          · -- every logged id is a listed follower or follower of a moved id
            intro x m hm
            rcases List.mem_cons.mp hm with heq | hm'
            · injection heq with h1 h2
              subst h1
              exact Or.inl (List.mem_cons_self _ _)
            · rcases List.mem_append.mp hm' with h1 | h2
              · rcases C3 x m h1 with he | ⟨z, hz, he⟩
                · exact Or.inr ⟨fid, memhead, (hE2 _ _).mp he⟩
                · exact Or.inr ⟨z, memlift1 _ hz, (hE2 _ _).mp he⟩
              · rcases L3 x m h2 with hxr | ⟨z, hz, he⟩
                · exact Or.inl (List.mem_cons_of_mem _ hxr)
                · exact Or.inr ⟨z, memlift2 _ hz, (hE3 _ _).mp he⟩
          · -- every logged id is reachable from a listed follower
            intro x m hm
            rcases List.mem_cons.mp hm with heq | hm'
            · injection heq with h1 h2
              subst h1
              exact ⟨x, List.mem_cons_self _ _, Relation.ReflTransGen.refl⟩
            · rcases List.mem_append.mp hm' with h1 | h2
              · have htg := C4 x m h1
                have htg' : Relation.TransGen (Edge σ) fid x :=
                  Relation.TransGen.mono (fun a b hab => (hE2 a b).mp hab) htg
                exact ⟨fid, List.mem_cons_self _ _, htg'.to_reflTransGen⟩
              · obtain ⟨f, hf, hrtg⟩ := L4 x m h2
                exact ⟨f, List.mem_cons_of_mem _ hf,
                  Relation.ReflTransGen.mono (fun a b hab => (hE3 a b).mp hab) hrtg⟩
          · -- every listed follower is logged
            intro x hx
            rcases List.mem_cons.mp hx with rfl | hx'
            · exact ⟨true, memhead⟩
            · obtain ⟨m', hm'⟩ := L5 x hx'
              exact ⟨m', memlift2 _ hm'⟩
          · -- followers of a logged moved id are logged
            intro z hz x he
            rcases List.mem_cons.mp hz with heq | hz'
            · injection heq with h1 h2
              subst h1
              have hs : (getTask σ₂ z).isSome := by rw [hgf₂]; rfl
              obtain ⟨m', hm'⟩ := C5 hs x ((hE2 _ _).mpr he)
              exact ⟨m', memlift1 _ hm'⟩
            · rcases List.mem_append.mp hz' with h1 | h2
              · obtain ⟨m', hm'⟩ := C6 z h1 x ((hE2 _ _).mpr he)
                exact ⟨m', memlift1 _ hm'⟩
              · obtain ⟨m', hm'⟩ := L6 z h2 x ((hE3 _ _).mpr he)
                exact ⟨m', memlift2 _ hm'⟩
          · -- start dates never decrease
            intro x t t' h1 h4
            obtain ⟨t2, h2, -⟩ := getTask_some_of_skel hsk2 h1
            obtain ⟨t3, h3, -⟩ := getTask_some_of_skel C1 h2
            exact le_trans (mono12 x t t2 h1 h2)
              (le_trans (C7 x t2 t3 h2 h3) (L7 x t3 t' h3 h4))
          · -- a logged moved id strictly increased
            intro x hx
            rcases List.mem_cons.mp hx with heq | hx'
            · injection heq with h1 h2
              subst h1
              obtain ⟨t3, h3, -⟩ := getTask_some_of_skel C1 hgf₂
              obtain ⟨t4, h4, -⟩ := getTask_some_of_skel L1 h3
              refine ⟨tf, t4, hgf, h4, ?_⟩
              have s1 : endDate p ≤ t3.start_date := by
                have := C7 x _ t3 hgf₂ h3
                simpa using this
              have s2 : t3.start_date ≤ t4.start_date := L7 x t3 t4 h3 h4
              omega
            · rcases List.mem_append.mp hx' with h1 | h2
              · obtain ⟨t2, t3, h2, h3, hlt23⟩ := C8 x h1
                obtain ⟨u2, hu2, hsk⟩ := getTask_some_of_skel (sameSkel_symm hsk2) h2
                obtain ⟨t4, h4, -⟩ := getTask_some_of_skel L1 h3
                refine ⟨u2, t4, hu2, h4, ?_⟩
                have s1 : u2.start_date ≤ t2.start_date := mono12 x u2 t2 hu2 h2
                have s2 : t3.start_date ≤ t4.start_date := L7 x t3 t4 h3 h4
                omega
              · obtain ⟨t3, t4, h3, h4, hlt34⟩ := L8 x h2
                obtain ⟨u, hu, -⟩ := getTask_some_of_skel (sameSkel_symm hsk3) h3
                refine ⟨u, t4, hu, h4, ?_⟩
                obtain ⟨t2, h2, -⟩ := getTask_some_of_skel hsk2 hu
                have s1 : u.start_date ≤ t2.start_date := mono12 x u t2 hu h2
                have s2 : t2.start_date ≤ t3.start_date := by
                  obtain ⟨t3', h3', -⟩ := getTask_some_of_skel C1 h2
                  rw [h3'] at h3
                  have := Option.some.inj h3
                  subst this
                  exact C7 x t2 t3' h2 h3'
                omega

theorem cascadeT_master : ∀ fuel σ r out,
    cascadeT fuel σ r = some out → CascProp σ r out := by
  intro fuel
  induction fuel with
  | zero =>
    intro σ r out h
    simp only [cascadeT] at h
    cases h
  | succ fuel ih =>
    intro σ r out h
    rcases hg : getTask σ r with _ | task
    · simp only [cascadeT, hg] at h
      have hout : out = (σ, []) := (Option.some.inj h).symm
      subst hout
      refine ⟨sameSkel_refl σ, ?_, ?_, ?_, ?_, ?_, ?_, ?_⟩
      · intro x hx; exact absurd rfl hx
      · intro x m hm; simp at hm
      · intro x m hm; simp at hm
      · intro hs; rw [hg] at hs; simp at hs
      · intro z hz; simp at hz
      · intro x t t' h1 h2; rw [h1] at h2; rw [Option.some.inj h2]
      · intro x hx; simp at hx
    · simp only [cascadeT, hg] at h
      have hid : task.id = r := (getTask_eq_some hg).2
      subst hid
      obtain ⟨L1, L2, L3, L4, L5, L6, L7, L8⟩ := runFollowersT_master ih _ σ out h
      refine ⟨L1, L2, ?_, ?_, ?_, L6, L7, L8⟩
      · intro x m hm
        rcases L3 x m hm with h1 | h2
        · exact Or.inl h1
        · exact Or.inr h2
      · intro x m hm
        obtain ⟨f, hf, hrtg⟩ := L4 x m hm
        exact Relation.TransGen.head' hf hrtg
      · intro hs x he
        exact L5 x he

/-! ## The ranked master lemma: trace uniqueness and the value equation -/

theorem adjustInStore_with_parent {σ : Store} {i : Nat} {t p : Task} {d : Nat}
    (hg : getTask σ i = some t) (hd : t.dependency_id = some d) (h0 : d ≠ 0)
    (hp : getTask σ d = some p) :
    adjustInStore σ i = if t.start_date < endDate p
      then (setStart σ i (endDate p), true) else (σ, false) := by
  simp only [adjustInStore, hg, adjust_start_date_based_on_dependency, hd,
    if_neg h0, hp]
  unfold endDate
  by_cases hlt : t.start_date < p.start_date + p.duration_days
  · rw [if_pos hlt]
    simp [hlt]
  · rw [if_neg hlt]
    simp [hlt]

theorem adjustInStore_false_not_lt {σ : Store} {i : Nat} {t p : Task} {d : Nat}
    (hg : getTask σ i = some t) (hd : t.dependency_id = some d) (h0 : d ≠ 0)
    (hp : getTask σ d = some p) (h : adjustInStore σ i = (σ, false)) :
    ¬ t.start_date < endDate p := by
  intro hlt
  rw [adjustInStore_with_parent hg hd h0 hp, if_pos hlt] at h
  have := congrArg Prod.snd h
  simp at this

theorem getTask_final_eq {σ σ' : Store} {log : Log}
    (hsk : sameSkel σ σ')
    (h2 : ∀ x, startOf σ' x ≠ startOf σ x → (x, true) ∈ log)
    {x : Nat} (hx : (x, true) ∉ log) : getTask σ' x = getTask σ x := by
  refine getTask_eq_of_skel_start hsk ?_
  by_contra hne
  exact hx (h2 x hne)

theorem rtg_congr {σ τ : Store} (h : sameSkel σ τ) {a b : Nat}
    (hr : Relation.ReflTransGen (Edge τ) a b) : Relation.ReflTransGen (Edge σ) a b :=
  Relation.ReflTransGen.mono (fun x y hxy => (edge_sameSkel h).mp hxy) hr

theorem tg_congr {σ τ : Store} (h : sameSkel σ τ) {a b : Nat}
    (hr : Relation.TransGen (Edge τ) a b) : Relation.TransGen (Edge σ) a b :=
  Relation.TransGen.mono (fun x y hxy => (edge_sameSkel h).mp hxy) hr

/-- Under a forest topology: the examined ids of a completed cascade are
pairwise distinct, and every examined id x obeys the value equation: the
final row of x is the adjustment of the initial row of x against the final
row of its predecessor, and the logged boolean is the comparison result. -/
def NodupVal (σ : Store) (out : Store × Log) : Prop :=
  (out.2.map Prod.fst).Nodup
  ∧ (∀ x m, (x, m) ∈ out.2 → ∃ tx pid tp', getTask σ x = some tx ∧
      tx.dependency_id = some pid ∧ getTask out.1 pid = some tp' ∧
      getTask out.1 x = some (if tx.start_date < endDate tp'
        then { tx with start_date := endDate tp' } else tx) ∧
      m = decide (tx.start_date < endDate tp'))

theorem runFollowersT_nodupval {rank : Nat → Nat}
    {rec : Store → Nat → Option (Store × Log)}
    (hrecM : ∀ σ r out, rec σ r = some out → CascProp σ r out)
    (hrecN : ∀ σ r out, rec σ r = some out → UniqueIds σ → ValidIds σ →
      Ranked σ rank → NodupVal σ out) :
    ∀ ids σ out y ty, UniqueIds σ → ValidIds σ → Ranked σ rank →
      getTask σ y = some ty → y ≠ 0 → (∀ f ∈ ids, Edge σ y f) → ids.Nodup →
      runFollowersT rec σ ids = some out → NodupVal σ out := by
  intro ids
  induction ids with
  | nil =>
    intro σ out y ty hu hv hr hy hy0 hids hnd h
    simp only [runFollowersT] at h
    have hout : out = (σ, []) := (Option.some.inj h).symm
    subst hout
    exact ⟨List.nodup_nil, by intro x m hm; simp at hm⟩
  | cons fid rest ih =>
    intro σ out y ty hu hv hr hy hy0 hids hnd h
    have hEyf : Edge σ y fid := hids fid (List.mem_cons_self _ _)
    have hfid_rest : fid ∉ rest := (List.nodup_cons.mp hnd).1
    have hnd' : rest.Nodup := (List.nodup_cons.mp hnd).2
    -- the row at fid and its dependency data
    obtain ⟨tf0, htf0, htf0d, htf0i⟩ := mem_followerIds.mp hEyf
    have hgf0 : getTask σ fid = some tf0 := htf0i ▸ getTask_of_mem hu htf0
    rcases ha : adjustInStore σ fid with ⟨σ₂, m⟩
    cases m
    · -- not moved
      have hE : σ₂ = σ := adjustInStore_false ha
      subst hE
      simp only [runFollowersT, ha] at h
      rcases hrest : runFollowersT rec σ₂ rest with _ | out₂
      · simp only [hrest] at h; cases h
      · rcases out₂ with ⟨σ₄, log₂⟩
        simp only [hrest] at h
        have hout : out = (σ₄, (fid, false) :: log₂) := (Option.some.inj h).symm
        subst hout
        obtain ⟨L1, L2, L3, L4, L5, L6, L7, L8⟩ :=
          runFollowersT_master hrecM rest σ₂ (σ₄, log₂) hrest
        obtain ⟨N1, N2⟩ := ih σ₂ (σ₄, log₂) y ty hu hv hr hy hy0
          (fun f hf => hids f (List.mem_cons_of_mem _ hf)) hnd' hrest
        have hdisj : ∀ x, Relation.ReflTransGen (Edge σ₂) fid x →
            ∀ m', (x, m') ∉ log₂ := by
          intro x hfx m' hmem
          obtain ⟨g, hg, hgx⟩ := L4 x m' hmem
          exact subtree_disjoint hu hr hEyf (hids g (List.mem_cons_of_mem _ hg))
            (fun he => hfid_rest (he ▸ hg)) hfx hgx
        have hfid_log₂ : ∀ m', (fid, m') ∉ log₂ :=
          hdisj fid Relation.ReflTransGen.refl
        have hy_log₂ : (y, true) ∉ log₂ := by
          intro hmem
          obtain ⟨g, hg, hgy⟩ := L4 y true hmem
          have h1 : rank g ≤ rank y := rank_le_of_rtg hr hgy
          have h2 : rank y < rank g :=
            rank_lt_of_edge hr (hids g (List.mem_cons_of_mem _ hg))
          omega
        have hy4 : getTask σ₄ y = getTask σ₂ y := getTask_final_eq L1 L2 hy_log₂
        have hfid4 : getTask σ₄ fid = getTask σ₂ fid :=
          getTask_final_eq L1 L2 (hfid_log₂ true)
        constructor
        · -- nodup
          simp only [List.map_cons, List.nodup_cons]
          refine ⟨?_, N1⟩
          intro hmem
          obtain ⟨q, hq, hqf⟩ := List.mem_map.mp hmem
          have hq' : (q.1, q.2) ∈ log₂ := by rw [Prod.mk.eta]; exact hq
          rw [hqf] at hq'
          exact hfid_log₂ q.2 hq'
        · -- value equation
          intro x m hm
          rcases List.mem_cons.mp hm with heq | hm'
          · injection heq with h1 h2
            subst h1
            subst h2
            have hnlt : ¬ tf0.start_date < endDate ty :=
              adjustInStore_false_not_lt hgf0 htf0d hy0 hy ha
            refine ⟨tf0, y, ty, hgf0, htf0d, ?_, ?_, ?_⟩
            · rw [hy4, hy]
            · rw [hfid4, hgf0, if_neg hnlt]
            · simp [hnlt]
          · exact N2 x m hm'
    · -- moved
      obtain ⟨tf, d, p, hgf, hdf, h0, hp, hlt, hσ₂⟩ := adjustInStore_true ha
      have htfeq : tf = tf0 := by
        rw [hgf0] at hgf
        exact (Option.some.inj hgf).symm
      subst htfeq
      have hdy : y = d := by
        rw [htf0d] at hdf
        exact Option.some.inj hdf
      subst hdy
      have hpty : ty = p := by
        rw [hy] at hp
        exact Option.some.inj hp
      subst hpty
      simp only [runFollowersT, ha] at h
      rcases hrec₁ : rec σ₂ fid with _ | out₁
      · simp only [hrec₁] at h; cases h
      rcases out₁ with ⟨σ₃, log₁⟩
      simp only [hrec₁] at h
      rcases hrest : runFollowersT rec σ₃ rest with _ | out₂
      · simp only [hrest] at h; cases h
      rcases out₂ with ⟨σ₄, log₂⟩
      simp only [hrest] at h
      have hout : out = (σ₄, (fid, true) :: (log₁ ++ log₂)) := (Option.some.inj h).symm
      subst hout
      have hsk2 : sameSkel σ σ₂ := hσ₂ ▸ sameSkel_setStart σ fid (endDate ty)
      have hu₂ := uniqueIds_sameSkel hsk2 hu
      have hv₂ := validIds_sameSkel hsk2 hv
      have hr₂ := ranked_sameSkel hsk2 hr
      obtain ⟨C1, C2, C3, C4, C5, C6, C7, C8⟩ := hrecM σ₂ fid (σ₃, log₁) hrec₁
      obtain ⟨P1, P2⟩ := hrecN σ₂ fid (σ₃, log₁) hrec₁ hu₂ hv₂ hr₂
      have hsk3 : sameSkel σ σ₃ := sameSkel_trans hsk2 C1
      have hu₃ := uniqueIds_sameSkel hsk3 hu
      have hv₃ := validIds_sameSkel hsk3 hv
      have hr₃ := ranked_sameSkel hsk3 hr
      obtain ⟨L1, L2, L3, L4, L5, L6, L7, L8⟩ :=
        runFollowersT_master hrecM rest σ₃ (σ₄, log₂) hrest
      have hyfid : y ≠ fid := by
        intro he
        subst he
        exact absurd (rank_lt_of_edge hr hEyf) (lt_irrefl _)
      have hgy₂ : getTask σ₂ y = some ty := by
        rw [hσ₂, getTask_setStart_ne _ hyfid, hy]
      have hfid_log₁ : ∀ m', (fid, m') ∉ log₁ := by
        intro m' hmem
        exact not_tg_self hr₂ fid (C4 fid m' hmem)
      have hy_log₁ : ∀ m', (y, m') ∉ log₁ := by
        intro m' hmem
        have h1 := rank_lt_of_tg hr₂ (C4 y m' hmem)
        have h2 := rank_lt_of_edge hr hEyf
        omega
      have hgy₃ : getTask σ₃ y = some ty := by
        rw [getTask_final_eq C1 C2 (hy_log₁ true), hgy₂]
      have hids₃ : ∀ f ∈ rest, Edge σ₃ y f := fun f hf =>
        (edge_sameSkel hsk3).mpr (hids f (List.mem_cons_of_mem _ hf))
      obtain ⟨N1, N2⟩ := ih σ₃ (σ₄, log₂) y ty hu₃ hv₃ hr₃ hgy₃ hy0 hids₃ hnd' hrest
      have hdisj : ∀ x, Relation.ReflTransGen (Edge σ) fid x →
          ∀ m', (x, m') ∉ log₂ := by
        intro x hfx m' hmem
        obtain ⟨g, hg, hgx⟩ := L4 x m' hmem
        exact subtree_disjoint hu hr hEyf (hids g (List.mem_cons_of_mem _ hg))
          (fun he => hfid_rest (he ▸ hg)) hfx (rtg_congr hsk3 hgx)
      have hfid_log₂ : ∀ m', (fid, m') ∉ log₂ :=
        hdisj fid Relation.ReflTransGen.refl
      have hy_log₂ : (y, true) ∉ log₂ := by
        intro hmem
        obtain ⟨g, hg, hgy⟩ := L4 y true hmem
        have h1 : rank g ≤ rank y := rank_le_of_rtg hr (rtg_congr hsk3 hgy)
        have h2 : rank y < rank g := rank_lt_of_edge hr (hids g (List.mem_cons_of_mem _ hg))
        omega
      have hgy₄ : getTask σ₄ y = some ty := by
        rw [getTask_final_eq L1 L2 hy_log₂, hgy₃]
      have hgf₂ : getTask σ₂ fid = some { tf with start_date := endDate ty } :=
        hσ₂ ▸ getTask_setStart_self _ hgf
      have hgf₃ : getTask σ₃ fid = getTask σ₂ fid :=
        getTask_final_eq C1 C2 (hfid_log₁ true)
      have hgf₄ : getTask σ₄ fid = getTask σ₂ fid := by
        rw [getTask_final_eq L1 L2 (hfid_log₂ true), hgf₃]
      constructor
      · -- nodup of the examined ids
        simp only [List.map_cons, List.map_append, List.nodup_cons]
        constructor
        · intro hmem
          rcases List.mem_append.mp hmem with h1 | h2
          · obtain ⟨q, hq, hqf⟩ := List.mem_map.mp h1
            have hq' : (q.1, q.2) ∈ log₁ := by rw [Prod.mk.eta]; exact hq
            rw [hqf] at hq'
            exact hfid_log₁ q.2 hq'
          · obtain ⟨q, hq, hqf⟩ := List.mem_map.mp h2
            have hq' : (q.1, q.2) ∈ log₂ := by rw [Prod.mk.eta]; exact hq
            rw [hqf] at hq'
            exact hfid_log₂ q.2 hq'
        · rw [List.nodup_append]
          refine ⟨P1, N1, ?_⟩
          intro a ha1 ha2
          obtain ⟨q, hq, hqf⟩ := List.mem_map.mp ha1
          obtain ⟨q', hq', hqf'⟩ := List.mem_map.mp ha2
          have hrtg : Relation.ReflTransGen (Edge σ) fid a := by
            have hq₁ : (q.1, q.2) ∈ log₁ := by rw [Prod.mk.eta]; exact hq
            have := C4 q.1 q.2 hq₁
            rw [hqf] at this
            exact (tg_congr hsk2 this).to_reflTransGen
          have hq₂ : (q'.1, q'.2) ∈ log₂ := by rw [Prod.mk.eta]; exact hq'
          rw [hqf'] at hq₂
          exact hdisj a hrtg q'.2 hq₂
      · -- value equation for each examined id
        intro x m hm
        rcases List.mem_cons.mp hm with heq | hm'
        · injection heq with h1 h2
          subst h1
          subst h2
          refine ⟨tf, y, ty, hgf, htf0d, hgy₄, ?_, ?_⟩
          · rw [hgf₄, hgf₂, if_pos hlt]
          · simp [hlt]
        · rcases List.mem_append.mp hm' with h1 | h2
          · obtain ⟨tx, pid, tp', hgx₂, hdx, hgp₃, hgx₃, hmv⟩ := P2 x m h1
            have hxfid : x ≠ fid := fun he => hfid_log₁ m (he ▸ h1)
            have hgx₂' : getTask σ₂ x = getTask σ x := by
              rw [hσ₂]
              exact getTask_setStart_ne _ hxfid
            have hgxσ : getTask σ x = some tx := by rw [← hgx₂', hgx₂]
            have htgx : Relation.TransGen (Edge σ) fid x := tg_congr hsk2 (C4 x m h1)
            have hrtgx : Relation.ReflTransGen (Edge σ) fid x := htgx.to_reflTransGen
            have hEpx : Edge σ pid x := by
              obtain ⟨hmem, hid⟩ := getTask_eq_some hgxσ
              exact mem_followerIds.mpr ⟨tx, hmem, hdx, hid⟩
            have hrtgp : Relation.ReflTransGen (Edge σ) fid pid := by
              obtain ⟨q, hq, hqx⟩ := tg_last htgx
              have hqp : q = pid := parent_unique hu hqx hEpx
              exact hqp ▸ hq
            have hgp₄ : getTask σ₄ pid = some tp' := by
              rw [getTask_final_eq L1 L2 (hdisj pid hrtgp true), hgp₃]
            have hgx₄ : getTask σ₄ x = getTask σ₃ x :=
              getTask_final_eq L1 L2 (hdisj x hrtgx true)
            rw [hgx₃] at hgx₄
            exact ⟨tx, pid, tp', hgxσ, hdx, hgp₄, hgx₄, hmv⟩
          · obtain ⟨tx, pid, tp', hgx₃, hdx, hgp₄, hgx₄, hmv⟩ := N2 x m h2
            have hxfid : x ≠ fid := fun he => hfid_log₂ m (he ▸ h2)
            have hx_log₁ : (x, true) ∉ log₁ := by
              intro hmem
              have hrtg : Relation.ReflTransGen (Edge σ) fid x :=
                (tg_congr hsk2 (C4 x true hmem)).to_reflTransGen
              exact hdisj x hrtg m h2
            have hgx₂' : getTask σ₂ x = getTask σ x := by
              rw [hσ₂]
              exact getTask_setStart_ne _ hxfid
            have hgx₃' : getTask σ₃ x = getTask σ x := by
              rw [getTask_final_eq C1 C2 hx_log₁, hgx₂']
            rw [hgx₃'] at hgx₃
            exact ⟨tx, pid, tp', hgx₃, hdx, hgp₄, hgx₄, hmv⟩

theorem cascadeT_nodupval {rank : Nat → Nat} : ∀ fuel σ r out,
    cascadeT fuel σ r = some out → UniqueIds σ → ValidIds σ → Ranked σ rank →
    NodupVal σ out := by
  intro fuel
  induction fuel with
  | zero =>
    intro σ r out h
    simp only [cascadeT] at h
    cases h
  | succ fuel ih =>
    intro σ r out h hu hv hr
    rcases hg : getTask σ r with _ | task
    · simp only [cascadeT, hg] at h
      have hout : out = (σ, []) := (Option.some.inj h).symm
      subst hout
      exact ⟨List.nodup_nil, by intro x m hm; simp at hm⟩
    · simp only [cascadeT, hg] at h
      have hid : task.id = r := (getTask_eq_some hg).2
      subst hid
      have hr0 : task.id ≠ 0 := hv task (getTask_eq_some hg).1
      exact runFollowersT_nodupval (cascadeT_master fuel)
        (fun σ' r' out' h' hu' hv' hr' => ih σ' r' out' h' hu' hv' hr')
        (followerIds σ task.id) σ out task.id task hu hv hr hg hr0
        (fun f hf => hf) (followerIds_nodup hu task.id) h

/-! ## Claim theorems -/

/-- Claim C1: for a task with a present, resolvable predecessor the
adjustment rule computes predecessor_end = start_date + duration_days of
the predecessor; it moves the task to exactly predecessor_end and reports
true when the task starts strictly before predecessor_end, and otherwise
(including exact equality) leaves the task unchanged and reports false. -/
theorem claim_C1_adjustment_rule (σ : Store) (t p : Task) (d : Nat)
    (hv : ValidIds σ) (hd : t.dependency_id = some d) (hp : getTask σ d = some p) :
    adjust_start_date_based_on_dependency σ t =
      if t.start_date < endDate p
        then ({ t with start_date := endDate p }, true)
        else (t, false) := by
  have h0 : d ≠ 0 := by
    obtain ⟨hmem, hid⟩ := getTask_eq_some hp
    exact hid ▸ hv p hmem
  simp only [adjust_start_date_based_on_dependency, hd, if_neg h0, hp]
  unfold endDate
  by_cases hlt : t.start_date < p.start_date + p.duration_days
  · rw [if_pos hlt]
  · rw [if_neg hlt]

/-- Witness for C1 at a concrete store: a follower starting on day 2 with
a predecessor ending on day 5 is pushed to day 5 and flagged moved. -/
theorem claim_C1_adjustment_rule_witness :
    adjust_start_date_based_on_dependency [⟨1, 0, 5, none, false⟩]
        ⟨2, 2, 3, some 1, false⟩ =
      ({ id := 2, start_date := 5, duration_days := 3,
         dependency_id := some 1, is_completed := false }, true) := by
  rw [claim_C1_adjustment_rule [⟨1, 0, 5, none, false⟩] ⟨2, 2, 3, some 1, false⟩
    ⟨1, 0, 5, none, false⟩ 1 (by decide) rfl rfl]
  decide

/-- Claim C7: when the dependency reference is absent, or refers to a task
that does not exist in storage, the adjustment rule is a no-op: the task
is unchanged and false is reported.  The rule is a total function, so no
error is raised to the caller. -/
theorem claim_C7_missing_predecessor (σ : Store) (t : Task) :
    (t.dependency_id = none → adjust_start_date_based_on_dependency σ t = (t, false))
    ∧ (∀ d, t.dependency_id = some d → getTask σ d = none →
        adjust_start_date_based_on_dependency σ t = (t, false)) := by
  constructor
  · intro h
    simp [adjust_start_date_based_on_dependency, h]
  · intro d hd hn
    simp only [adjust_start_date_based_on_dependency, hd]
    by_cases h0 : d = 0
    · rw [if_pos h0]
    · rw [if_neg h0]
      simp only [hn]

/-- Witness for C7: a root task and a task with a dangling reference are
both left unchanged with moved = false. -/
theorem claim_C7_missing_predecessor_witness :
    adjust_start_date_based_on_dependency [] ⟨1, 0, 2, none, false⟩ =
        (⟨1, 0, 2, none, false⟩, false)
    ∧ adjust_start_date_based_on_dependency [] ⟨1, 0, 2, some 7, false⟩ =
        (⟨1, 0, 2, some 7, false⟩, false) :=
  ⟨(claim_C7_missing_predecessor [] ⟨1, 0, 2, none, false⟩).1 rfl,
   (claim_C7_missing_predecessor [] ⟨1, 0, 2, some 7, false⟩).2 7 rfl rfl⟩

theorem getTask_filter_ne (σ : Store) (i x : Nat) (hx : x ≠ i) :
    getTask (σ.filter (fun t => decide (t.id ≠ i))) x = getTask σ x := by
  induction σ with
  | nil => rfl
  | cons a σ' ih =>
    by_cases hai : a.id = i
    · have hax : ¬ a.id = x := by rw [hai]; exact fun he => hx he.symm
      have h1 : getTask (a :: σ') x = getTask σ' x := by
        rw [getTask, List.find?_cons_of_neg _ (by simp [hax])]
        rfl
      rw [List.filter_cons, if_neg (by simp [hai]), ih, h1]
    · rw [List.filter_cons, if_pos (by simp [hai])]
      by_cases hax : a.id = x
      · rw [getTask, getTask, List.find?_cons_of_pos _ (by simp [hax]),
          List.find?_cons_of_pos _ (by simp [hax])]
      · rw [getTask, getTask, List.find?_cons_of_neg _ (by simp [hax]),
          List.find?_cons_of_neg _ (by simp [hax])]
        exact ih

theorem getTask_filter_self (σ : Store) (i : Nat) :
    getTask (σ.filter (fun t => decide (t.id ≠ i))) i = none := by
  rw [getTask, List.find?_eq_none]
  intro t ht
  have h2 := (List.mem_filter.mp ht).2
  simp at h2 ⊢
  exact h2

/-- Claim C9: deletion performs no propagation or re-validation: every row
other than the deleted one is byte-for-byte unchanged (in particular a
follower keeps its start_date and its now-dangling dependency_id), and the
deleted id no longer resolves. -/
theorem claim_C9_delete_no_propagation (σ : Store) (i : Nat) :
    (∀ x, x ≠ i → getTask (delete_task_api σ i).1 x = getTask σ x)
    ∧ getTask (delete_task_api σ i).1 i = none := by
  unfold delete_task_api
  rcases hg : getTask σ i with _ | t
  · exact ⟨fun x _ => rfl, hg⟩
  · simp only []
    exact ⟨fun x hx => getTask_filter_ne σ i x hx, getTask_filter_self σ i⟩

/-- Witness for C9: deleting task 1 leaves its follower (task 2, dangling
dependency_id 1) untouched, and id 1 no longer resolves. -/
theorem claim_C9_delete_no_propagation_witness :
    getTask (delete_task_api [⟨1, 0, 5, none, false⟩, ⟨2, 2, 3, some 1, false⟩] 1).1 2 =
        getTask [⟨1, 0, 5, none, false⟩, ⟨2, 2, 3, some 1, false⟩] 2
    ∧ getTask (delete_task_api [⟨1, 0, 5, none, false⟩, ⟨2, 2, 3, some 1, false⟩] 1).1 1 =
        none :=
  ⟨(claim_C9_delete_no_propagation [⟨1, 0, 5, none, false⟩, ⟨2, 2, 3, some 1, false⟩] 1).1
      2 (by decide),
   (claim_C9_delete_no_propagation [⟨1, 0, 5, none, false⟩, ⟨2, 2, 3, some 1, false⟩] 1).2⟩

/-- Claim C10: a cascade from an id with no stored task returns immediately
with the store unchanged; and (under the forest topology the engine
assumes) a completed cascade never modifies the root task itself. -/
theorem claim_C10_root_untouched (σ : Store) (r : Nat) (rank : Nat → Nat) :
    (getTask σ r = none → ∀ fuel, 0 < fuel → cascade_updates fuel σ r = some σ)
    ∧ (Ranked σ rank → ∀ fuel σ', cascade_updates fuel σ r = some σ' →
        startOf σ' r = startOf σ r) := by
  constructor
  · intro hg fuel hf
    match fuel, hf with
    | fuel + 1, _ => simp only [cascade_updates, hg]
  · intro hr fuel σ' hrun
    rw [cascade_agree] at hrun
    rcases hT : cascadeT fuel σ r with _ | out
    · rw [hT] at hrun; cases hrun
    · rw [hT] at hrun
      rcases out with ⟨σfin, log⟩
      have hout : σfin = σ' := by simpa using hrun
      subst hout
      obtain ⟨M1, M2, M3, M4, M5, M6, M7, M8⟩ := cascadeT_master fuel σ r (σfin, log) hT
      by_contra hne
      exact not_tg_self hr r (M4 r true (M2 r hne))

/-- Witness for C10: a cascade from the missing id 7 is a no-op, and the
cascade from task 1 (which moves task 2) leaves task 1 where it was. -/
theorem claim_C10_root_untouched_witness :
    cascade_updates 2 [⟨1, 0, 5, none, false⟩, ⟨2, 2, 3, some 1, false⟩] 7 =
        some [⟨1, 0, 5, none, false⟩, ⟨2, 2, 3, some 1, false⟩]
    ∧ startOf [⟨1, 0, 5, none, false⟩, ⟨2, 5, 3, some 1, false⟩] 1 =
        startOf [⟨1, 0, 5, none, false⟩, ⟨2, 2, 3, some 1, false⟩] 1 :=
  ⟨(claim_C10_root_untouched [⟨1, 0, 5, none, false⟩, ⟨2, 2, 3, some 1, false⟩] 7
      (fun n => n)).1 (by decide) 2 (by decide),
   (claim_C10_root_untouched [⟨1, 0, 5, none, false⟩, ⟨2, 2, 3, some 1, false⟩] 1
      (fun n => n)).2 (by decide) 3
      [⟨1, 0, 5, none, false⟩, ⟨2, 5, 3, some 1, false⟩] (by decide)⟩

/-- A two-task dependency cycle with unit durations: task 1 depends on
task 2 and task 2 depends on task 1. -/
def cycleStore (a b : Int) : Store :=
  [⟨1, a, 1, some 2, false⟩, ⟨2, b, 1, some 1, false⟩]

theorem cycle_cascade_diverges : ∀ fuel,
    (∀ a b : Int, b < a + 1 → cascade_updates fuel (cycleStore a b) 1 = none)
    ∧ (∀ a b : Int, a < b + 1 → cascade_updates fuel (cycleStore a b) 2 = none) := by
  intro fuel
  induction fuel with
  | zero => exact ⟨fun a b _ => rfl, fun a b _ => rfl⟩
  | succ fuel ih =>
    constructor
    · intro a b hlt
      have hg : getTask (cycleStore a b) 1 = some ⟨1, a, 1, some 2, false⟩ := rfl
      have ha : adjustInStore (cycleStore a b) 2 =
          (setStart (cycleStore a b) 2 (a + 1), true) := by
        rw [@adjustInStore_with_parent (cycleStore a b) 2 ⟨2, b, 1, some 1, false⟩
          ⟨1, a, 1, some 2, false⟩ 1 rfl rfl (by decide) rfl]
        rw [if_pos (show (⟨2, b, 1, some 1, false⟩ : Task).start_date <
          endDate ⟨1, a, 1, some 2, false⟩ by unfold endDate; simpa using hlt)]
        unfold endDate
        norm_num
      have hset : setStart (cycleStore a b) 2 (a + 1) = cycleStore a (a + 1) := by
        unfold setStart cycleStore
        simp
      simp only [cascade_updates, hg]
      have hfl : followerIds (cycleStore a b) 1 = [2] := rfl
      simp only [hfl, runFollowers, ha, hset]
      rw [ih.2 a (a + 1) (by omega)]
    · intro a b hlt
      have hg : getTask (cycleStore a b) 2 = some ⟨2, b, 1, some 1, false⟩ := rfl
      have ha : adjustInStore (cycleStore a b) 1 =
          (setStart (cycleStore a b) 1 (b + 1), true) := by
        rw [@adjustInStore_with_parent (cycleStore a b) 1 ⟨1, a, 1, some 2, false⟩
          ⟨2, b, 1, some 1, false⟩ 2 rfl rfl (by decide) rfl]
        rw [if_pos (show (⟨1, a, 1, some 2, false⟩ : Task).start_date <
          endDate ⟨2, b, 1, some 1, false⟩ by unfold endDate; simpa using hlt)]
        unfold endDate
        norm_num
      have hset : setStart (cycleStore a b) 1 (b + 1) = cycleStore (b + 1) b := by
        unfold setStart cycleStore
        simp
      simp only [cascade_updates, hg]
      have hfl : followerIds (cycleStore a b) 2 = [1] := rfl
      simp only [hfl, runFollowers, ha, hset]
      rw [ih.1 (b + 1) b (by omega)]

/-- Claim C3 is about behaviour the code does not have: on the two-task
cycle, the cascade triggered from either task exhausts every recursion
bound without completing and without reporting anything, i.e. the Python
original recurses unboundedly; there is no enforced visit bound and no
cycle-detected condition in cascade_updates. -/
theorem claim_C3_no_cycle_guard : ∀ fuel,
    cascade_updates fuel (cycleStore 0 0) 1 = none
    ∧ cascade_updates fuel (cycleStore 0 0) 2 = none := fun fuel =>
  ⟨(cycle_cascade_diverges fuel).1 0 0 (by decide),
   (cycle_cascade_diverges fuel).2 0 0 (by decide)⟩

theorem getTask_append_fresh {σ : Store} {t : Task}
    (h : ∀ u ∈ σ, u.id ≠ t.id) : getTask (σ ++ [t]) t.id = some t := by
  induction σ with
  | nil => simp [getTask]
  | cons a σ' ih =>
    have ha : ¬ a.id = t.id := h a (List.mem_cons_self _ _)
    rw [List.cons_append, getTask, List.find?_cons_of_neg _ (by simp [ha])]
    exact ih (fun u hu => h u (List.mem_cons_of_mem _ hu))

theorem followerIds_eq_nil {σ : Store} {i : Nat}
    (h : ∀ u ∈ σ, u.dependency_id ≠ some i) : followerIds σ i = [] := by
  unfold followerIds
  have hf : σ.filter (fun t => decide (t.dependency_id = some i)) = [] := by
    rw [List.filter_eq_nil_iff]
    intro u hu
    simp [h u hu]
  rw [hf]
  rfl

/-- Claim C6 as stated is false on the create path: add_task_api never
runs the cascade walker, and this is observable at a reachable store.
Task 2 holds a dangling dependency_id 3 (dependency_id is stored
unchecked and survives deletion of its target), and the next created task
receives the reused id 3 (SQLite INTEGER PRIMARY KEY without AUTOINCREMENT
hands out max rowid + 1): the code leaves task 2 at day 0, violating the
invariant against the new task 3 (which ends on day 5), while the claimed
adjust-then-cascade pipeline would move task 2 to day 5; the two stores
differ. -/
theorem claim_C6_counterexample :
    add_task_api [⟨2, 0, 1, some 3, false⟩] ⟨3, 0, 5, none, false⟩ =
      [⟨2, 0, 1, some 3, false⟩, ⟨3, 0, 5, none, false⟩]
    ∧ consistentB (add_task_api [⟨2, 0, 1, some 3, false⟩] ⟨3, 0, 5, none, false⟩) 2 =
      false
    ∧ spec_apply_and_cascade 2
        ([⟨2, 0, 1, some 3, false⟩] ++ [⟨3, 0, 5, none, false⟩]) 3 =
      some [⟨2, 5, 1, some 3, false⟩, ⟨3, 0, 5, none, false⟩]
    ∧ ¬ spec_apply_and_cascade 2
        ([⟨2, 0, 1, some 3, false⟩] ++ [⟨3, 0, 5, none, false⟩]) 3 =
      some (add_task_api [⟨2, 0, 1, some 3, false⟩] ⟨3, 0, 5, none, false⟩) := by
  decide

/-- Claim C6 amended: on edit, update_task_api is exactly the spec
pipeline (adjust the task itself, then cascade from its id) applied to
the store with the edited fields written.  On create, add_task_api runs
only the adjustment rule and no cascade walker; this agrees with the spec
pipeline exactly when the new task's id is fresh in the strong sense that
no stored row already carries it or references it as a dependency_id and
the new task does not reference itself - and not otherwise, as the
counterexample shows.  Persistence commits happen at the end of each
handler and are not separately observable in the session embedding. -/
theorem claim_C6_create_edit_pipeline :
    (∀ fuel σ i s dur dep t, getTask σ i = some t →
        update_task_api fuel σ i s dur dep =
          spec_apply_and_cascade fuel (setFields σ i s dur dep) i)
    ∧ (∀ σ (t : Task) fuel, 0 < fuel →
        (∀ u ∈ σ, u.id ≠ t.id) → (∀ u ∈ σ, u.dependency_id ≠ some t.id) →
        t.dependency_id ≠ some t.id →
        spec_apply_and_cascade fuel (σ ++ [t]) t.id = some (add_task_api σ t)) := by
  constructor
  · intro fuel σ i s dur dep t hg
    simp only [update_task_api, hg, spec_apply_and_cascade]
  · intro σ t fuel hf hfresh hdep hself
    have hg₁ : getTask (σ ++ [t]) t.id = some t := getTask_append_fresh hfresh
    have hdep₁ : ∀ u ∈ σ ++ [t], u.dependency_id ≠ some t.id := by
      intro u hu
      rcases List.mem_append.mp hu with h1 | h2
      · exact hdep u h1
      · have : u = t := by simpa using h2
        subst this
        exact hself
    unfold spec_apply_and_cascade add_task_api
    rcases ha : adjustInStore (σ ++ [t]) t.id with ⟨σ₂, m⟩
    have hsk : sameSkel (σ ++ [t]) σ₂ := by
      cases m
      · rw [adjustInStore_false ha]
        exact sameSkel_refl _
      · obtain ⟨t', d', p', h1', h2', h3', h4', h5', hσ₂⟩ := adjustInStore_true ha
        exact hσ₂ ▸ sameSkel_setStart _ _ _
    have hg₂ : ∃ t₂, getTask σ₂ t.id = some t₂ ∧ skel t₂ = skel t :=
      getTask_some_of_skel hsk hg₁
    obtain ⟨t₂, hg₂', hsk₂⟩ := hg₂
    have hid₂ : t₂.id = t.id := (skel_eq_iff.mp hsk₂).1
    have hfl : followerIds σ₂ t.id = [] := by
      rw [followerIds_sameSkel _ _ hsk]
      exact followerIds_eq_nil hdep₁
    match fuel, hf with
    | fuel + 1, _ =>
      simp only [cascade_updates, hg₂', hid₂, hfl, runFollowers]

/-- Witness for the amended C6 at concrete stores: an edit of task 1
agrees with the spec pipeline, and a create of task 2 (depending on task
1, with an id nothing references) agrees with the spec pipeline including
its cascade step. -/
theorem claim_C6_create_edit_pipeline_witness :
    update_task_api 3 [⟨1, 0, 5, none, false⟩] 1 4 2 none =
        spec_apply_and_cascade 3 (setFields [⟨1, 0, 5, none, false⟩] 1 4 2 none) 1
    ∧ spec_apply_and_cascade 1 ([⟨1, 0, 5, none, false⟩] ++ [⟨2, 0, 3, some 1, false⟩])
        (⟨2, 0, 3, some 1, false⟩ : Task).id =
        some (add_task_api [⟨1, 0, 5, none, false⟩] ⟨2, 0, 3, some 1, false⟩) :=
  ⟨claim_C6_create_edit_pipeline.1 3 [⟨1, 0, 5, none, false⟩] 1 4 2 none
      ⟨1, 0, 5, none, false⟩ rfl,
   claim_C6_create_edit_pipeline.2 [⟨1, 0, 5, none, false⟩] ⟨2, 0, 3, some 1, false⟩ 1
      (by decide) (by decide) (by decide) (by decide)⟩

theorem consistentB_true_of {σ : Store} {x : Nat} {tx pp : Task} {pd : Nat}
    (hg : getTask σ x = some tx) (hd : tx.dependency_id = some pd)
    (hp : getTask σ pd = some pp) (hge : endDate pp ≤ tx.start_date) :
    consistentB σ x = true := by
  simp only [consistentB, hg, hd, hp]
  simpa using hge

theorem le_of_consistentB {σ : Store} {x : Nat} {tx pp : Task} {pd : Nat}
    (hg : getTask σ x = some tx) (hd : tx.dependency_id = some pd)
    (hp : getTask σ pd = some pp) (hc : consistentB σ x = true) :
    endDate pp ≤ tx.start_date := by
  simp only [consistentB, hg, hd, hp] at hc
  simpa using hc

/-- The store of the C2 counterexample: task 1 is the root, task 2 (a
follower of 1) already satisfies the invariant exactly, and task 3 (a
follower of 2) violates the invariant against task 2 from the start. -/
def c2store : Store :=
  [⟨1, 0, 5, none, false⟩, ⟨2, 5, 5, some 1, false⟩, ⟨3, 0, 0, some 2, false⟩]

/-- Claim C2 as stated is false on the code: after cascade_updates from
task 1 returns (leaving the store unchanged, because task 2 does not move
and pruning skips its subtree), task 3 is reachable from the root via
follower edges, has a present predecessor, and still starts before that
predecessor ends. -/
theorem claim_C2_counterexample :
    cascade_updates 9 c2store 1 = some c2store
    ∧ Relation.TransGen (Edge c2store) 1 3
    ∧ consistentB c2store 3 = false := by
  refine ⟨by decide, ?_, by decide⟩
  have e12 : Edge c2store 1 2 := by decide
  have e23 : Edge c2store 2 3 := by decide
  exact Relation.TransGen.tail (Relation.TransGen.single e12) e23

/-- Claim C2 amended: assuming a forest topology, unique positive row ids,
and that before the call every task reachable from the root other than a
direct follower of the root already satisfied the invariant, then after
cascade_updates(root) returns every task strictly reachable from the root
via follower edges satisfies the invariant, and every row not strictly
reachable from the root (the root itself included) is unchanged. -/
theorem claim_C2_cascade_invariant (σ : Store) (r : Nat) (rank : Nat → Nat)
    (fuel : Nat) (σ' : Store)
    (hu : UniqueIds σ) (hv : ValidIds σ) (hr : Ranked σ rank)
    (hrun : cascade_updates fuel σ r = some σ')
    (hpre : ∀ x, Relation.TransGen (Edge σ) r x →
      Edge σ r x ∨ consistentB σ x = true) :
    (∀ x, Relation.TransGen (Edge σ) r x → consistentB σ' x = true)
    ∧ (∀ x, ¬ Relation.TransGen (Edge σ) r x → getTask σ' x = getTask σ x) := by
  rw [cascade_agree] at hrun
  rcases hT : cascadeT fuel σ r with _ | out
  · rw [hT] at hrun; cases hrun
  rcases out with ⟨σfin, log⟩
  rw [hT] at hrun
  have hout : σfin = σ' := by simpa using hrun
  subst hout
  obtain ⟨M1, M2, M3, M4, M5, M6, M7, M8⟩ := cascadeT_master fuel σ r (σfin, log) hT
  obtain ⟨N1, N2⟩ := cascadeT_nodupval fuel σ r (σfin, log) hT hu hv hr
  have hframe : ∀ x, ¬ Relation.TransGen (Edge σ) r x → getTask σfin x = getTask σ x := by
    intro x hnx
    refine getTask_final_eq M1 M2 ?_
    intro hmem
    exact hnx (M4 x true hmem)
  refine ⟨?_, hframe⟩
  intro x htg
  by_cases hlog : ∃ m, (x, m) ∈ log
  · -- x was examined: the value equation makes it consistent
    obtain ⟨m, hm⟩ := hlog
    obtain ⟨tx, pid, tp', hgx, hdx, hgp, hgx', hmv⟩ := N2 x m hm
    have hdep' : (if tx.start_date < endDate tp'
        then { tx with start_date := endDate tp' } else tx).dependency_id = some pid := by
      by_cases hlt : tx.start_date < endDate tp'
      · rw [if_pos hlt]; exact hdx
      · rw [if_neg hlt]; exact hdx
    refine consistentB_true_of hgx' hdep' hgp ?_
    by_cases hlt : tx.start_date < endDate tp'
    · rw [if_pos hlt]
    · rw [if_neg hlt]
      omega
  · -- x was not examined: it is unchanged and so is its predecessor
    push_neg at hlog
    have hxunch : getTask σfin x = getTask σ x :=
      getTask_final_eq M1 M2 (hlog true)
    cases hgx : getTask σfin x with
    | none => simp only [consistentB, hgx]
    | some tx =>
      cases hdx : tx.dependency_id with
      | none => simp only [consistentB, hgx, hdx]
      | some pd =>
        cases hgp : getTask σfin pd with
        | none => simp only [consistentB, hgx, hdx, hgp]
        | some pp =>
          -- the predecessor row exists; x is a follower edge target of pd
          have hgxσ : getTask σ x = some tx := by rw [← hxunch, hgx]
          have hEpx : Edge σ pd x := by
            obtain ⟨hmem, hid⟩ := getTask_eq_some hgxσ
            exact mem_followerIds.mpr ⟨tx, hmem, hdx, hid⟩
          -- pd is unchanged: otherwise its followers (x included) are logged
          have hpdunch : getTask σfin pd = getTask σ pd := by
            refine getTask_final_eq M1 M2 ?_
            intro hmem
            obtain ⟨m', hm'⟩ := M6 pd hmem x hEpx
            exact hlog m' hm'
          have hgpσ : getTask σ pd = some pp := by rw [← hpdunch, hgp]
          -- x is not a direct follower of the root
          have hnotdirect : ¬ Edge σ r x := by
            intro hrx
            have hrsome : (getTask σ r).isSome := by
              have hpdr : pd = r := parent_unique hu hEpx hrx
              rw [← hpdr, hgpσ]
              rfl
            obtain ⟨m', hm'⟩ := M5 hrsome x hrx
            exact hlog m' hm'
          rcases hpre x htg with hrx | hcons
          · exact absurd hrx hnotdirect
          · exact consistentB_true_of hgx hdx hgp
              (le_of_consistentB hgxσ hdx hgpσ hcons)

/-- Witness for the amended C2 at a concrete store: task 2 starts too
early, the cascade pushes it to day 5, and afterwards every task reachable
from the root is consistent while everything else is untouched. -/
theorem claim_C2_cascade_invariant_witness :
    (∀ x, Relation.TransGen
        (Edge [⟨1, 0, 5, none, false⟩, ⟨2, 2, 3, some 1, false⟩]) 1 x →
      consistentB [⟨1, 0, 5, none, false⟩, ⟨2, 5, 3, some 1, false⟩] x = true)
    ∧ (∀ x, ¬ Relation.TransGen
        (Edge [⟨1, 0, 5, none, false⟩, ⟨2, 2, 3, some 1, false⟩]) 1 x →
      getTask [⟨1, 0, 5, none, false⟩, ⟨2, 5, 3, some 1, false⟩] x =
        getTask [⟨1, 0, 5, none, false⟩, ⟨2, 2, 3, some 1, false⟩] x) := by
  refine claim_C2_cascade_invariant
    [⟨1, 0, 5, none, false⟩, ⟨2, 2, 3, some 1, false⟩] 1 (fun n => n) 3
    [⟨1, 0, 5, none, false⟩, ⟨2, 5, 3, some 1, false⟩]
    (by decide) (by decide) (by decide) (by decide) ?_
  intro x htg
  obtain ⟨q, hq, hqx⟩ := tg_last htg
  have hx : x ∈ depTargets [⟨1, 0, 5, none, false⟩, ⟨2, 2, 3, some 1, false⟩] :=
    mem_depTargets_of_edge hqx
  have hx2 : x = 2 := by
    have hdt : depTargets [⟨1, 0, 5, none, false⟩, ⟨2, 2, 3, some 1, false⟩] = [2] := by
      decide
    rw [hdt] at hx
    simpa using hx
  subst hx2
  exact Or.inl (by decide)

theorem runFollowersT_noop {rec : Store → Nat → Option (Store × Log)} :
    ∀ (ids : List Nat) (σ : Store), (∀ f ∈ ids, adjustInStore σ f = (σ, false)) →
    runFollowersT rec σ ids = some (σ, ids.map (fun f => (f, false))) := by
  intro ids
  induction ids with
  | nil => intro σ _; rfl
  | cons fid rest ih =>
    intro σ h
    have ha := h fid (List.mem_cons_self _ _)
    simp only [runFollowersT, ha]
    rw [ih σ (fun f hf => h f (List.mem_cons_of_mem _ hf))]
    rfl

/-- Claim C5: running the cascade a second time from the same root
immediately after a completed run changes no task: the second run returns
the same store, and every adjustment application in it reports
moved = false. -/
theorem claim_C5_idempotent (σ : Store) (r : Nat) (rank : Nat → Nat) (fuel : Nat)
    (out : Store × Log)
    (hu : UniqueIds σ) (hv : ValidIds σ) (hr : Ranked σ rank)
    (hrun : cascadeT fuel σ r = some out) :
    ∀ fuel₂, 0 < fuel₂ → ∃ log₂,
      cascadeT fuel₂ out.1 r = some (out.1, log₂)
      ∧ (∀ q ∈ log₂, q.2 = false)
      ∧ cascade_updates fuel₂ out.1 r = some out.1 := by
  rcases out with ⟨σ', log⟩
  obtain ⟨M1, M2, M3, M4, M5, M6, M7, M8⟩ := cascadeT_master fuel σ r (σ', log) hrun
  obtain ⟨N1, N2⟩ := cascadeT_nodupval fuel σ r (σ', log) hrun hu hv hr
  intro fuel₂ hf₂
  match fuel₂, hf₂ with
  | fuel₂ + 1, _ =>
    rcases hg : getTask σ r with _ | task
    · have hg' : getTask σ' r = none := by
        have hs := getTask_skel σ σ' M1 r
        rw [hg] at hs
        cases hg2 : getTask σ' r with
        | none => rfl
        | some u => rw [hg2] at hs; simp at hs
      refine ⟨[], ?_, by simp, ?_⟩
      · simp only [cascadeT, hg']
      · simp only [cascade_updates, hg']
    · have hrsome : (getTask σ r).isSome := by rw [hg]; rfl
      have hrunch : getTask σ' r = getTask σ r := by
        refine getTask_final_eq M1 M2 ?_
        intro hmem
        exact not_tg_self hr r (M4 r true hmem)
      have hg' : getTask σ' r = some task := by rw [hrunch, hg]
      have hid : task.id = r := (getTask_eq_some hg).2
      have hfl' : followerIds σ' r = followerIds σ r := followerIds_sameSkel σ σ' M1 r
      have hcons : ∀ f ∈ followerIds σ' r, adjustInStore σ' f = (σ', false) := by
        intro f hf
        rw [hfl'] at hf
        obtain ⟨m, hm⟩ := M5 hrsome f hf
        obtain ⟨tx, pid, tp', hgx, hdx, hgp, hgx', hmv⟩ := N2 f m hm
        have hdep' : (if tx.start_date < endDate tp'
            then { tx with start_date := endDate tp' } else tx).dependency_id =
              some pid := by
          by_cases hlt : tx.start_date < endDate tp'
          · rw [if_pos hlt]; exact hdx
          · rw [if_neg hlt]; exact hdx
        have hge : endDate tp' ≤ (if tx.start_date < endDate tp'
            then { tx with start_date := endDate tp' } else tx).start_date := by
          by_cases hlt : tx.start_date < endDate tp'
          · rw [if_pos hlt]
          · rw [if_neg hlt]; exact le_of_not_lt hlt
        exact adjustInStore_of_consistent hgx' hdep' hgp hge
      have hT2 : cascadeT (fuel₂ + 1) σ' r =
          some (σ', (followerIds σ' r).map (fun f => (f, false))) := by
        simp only [cascadeT, hg']
        rw [hid]
        exact runFollowersT_noop (followerIds σ' r) σ' hcons
      refine ⟨(followerIds σ' r).map (fun f => (f, false)), hT2, ?_, ?_⟩
      · intro q hq
        obtain ⟨f, hf, hfq⟩ := List.mem_map.mp hq
        rw [← hfq]
      · rw [cascade_agree, hT2]
        rfl

/-- Witness for C5: after the cascade that moves task 2 to day 5, running
the cascade again from task 1 returns the store unchanged. -/
theorem claim_C5_idempotent_witness :
    cascade_updates 1 [⟨1, 0, 5, none, false⟩, ⟨2, 5, 3, some 1, false⟩] 1 =
      some [⟨1, 0, 5, none, false⟩, ⟨2, 5, 3, some 1, false⟩] := by
  obtain ⟨log₂, h1, h2, h3⟩ := claim_C5_idempotent
    [⟨1, 0, 5, none, false⟩, ⟨2, 2, 3, some 1, false⟩] 1 (fun n => n) 3
    ([⟨1, 0, 5, none, false⟩, ⟨2, 5, 3, some 1, false⟩], [(2, true)])
    (by decide) (by decide) (by decide) (by decide) 1 (by decide)
  exact h3

theorem log_fst_unique : ∀ {log : Log}, (log.map Prod.fst).Nodup →
    ∀ {a : Nat} {b c : Bool}, (a, b) ∈ log → (a, c) ∈ log → b = c := by
  intro log
  induction log with
  | nil => intro _ a b c h1 _; cases h1
  | cons q log' ih =>
    intro hnd a b c h1 h2
    have hq : q.1 ∉ log'.map Prod.fst ∧ (log'.map Prod.fst).Nodup := by
      simpa using hnd
    rcases List.mem_cons.mp h1 with he1 | hm1 <;>
      rcases List.mem_cons.mp h2 with he2 | hm2
    · rw [← he1] at he2
      exact (Prod.mk.injEq _ _ _ _ ▸ he2.symm).2
    · exfalso
      refine hq.1 ?_
      rw [← he1]
      simpa using List.mem_map_of_mem Prod.fst hm2
    · exfalso
      refine hq.1 ?_
      rw [← he2]
      simpa using List.mem_map_of_mem Prod.fst hm1
    · exact ih hq.2 hm1 hm2

/-- Claim C4 (pruning): under the forest topology, if a follower f was
examined during a cascade and reported not moved, then no strict
descendant of f was examined by that cascade, and every strict descendant
of f keeps its start_date. -/
theorem claim_C4_pruning (σ : Store) (r f : Nat) (rank : Nat → Nat) (fuel : Nat)
    (out : Store × Log)
    (hu : UniqueIds σ) (hv : ValidIds σ) (hr : Ranked σ rank)
    (hrun : cascadeT fuel σ r = some out)
    (hf : (f, false) ∈ out.2) :
    ∀ x, Relation.TransGen (Edge σ) f x →
      (∀ m, (x, m) ∉ out.2) ∧ startOf out.1 x = startOf σ x := by
  obtain ⟨M1, M2, M3, M4, M5, M6, M7, M8⟩ := cascadeT_master fuel σ r out hrun
  obtain ⟨N1, N2⟩ := cascadeT_nodupval fuel σ r out hrun hu hv hr
  have htgf : Relation.TransGen (Edge σ) r f := M4 f false hf
  have key : ∀ n x, rank x ≤ n → Relation.TransGen (Edge σ) f x →
      ∀ m, (x, m) ∉ out.2 := by
    intro n
    induction n with
    | zero =>
      intro x hn htg m hmem
      obtain ⟨q, hq, hqx⟩ := tg_last htg
      have := rank_lt_of_edge hr hqx
      omega
    | succ n ihn =>
      intro x hn htg m hmem
      obtain ⟨q, hq, hqx⟩ := tg_last htg
      rcases M3 x m hmem with hrx | ⟨z, hz, hzx⟩
      · -- the parent of x would be the root r, putting r below f
        have hrq : r = q := parent_unique hu hrx hqx
        subst hrq
        rcases Relation.reflTransGen_iff_eq_or_transGen.mp hq with heq | htg'
        · rw [heq] at htgf
          exact not_tg_self hr f htgf
        · exact not_tg_self hr r (Relation.TransGen.trans htgf htg')
      · have hzq : z = q := parent_unique hu hzx hqx
        subst hzq
        rcases Relation.reflTransGen_iff_eq_or_transGen.mp hq with heq | htg'
        · -- the moved parent would be f itself, contradicting nodup of the log
          rw [heq] at hz
          cases log_fst_unique N1 hf hz
        · have hqn : rank z ≤ n := by
            have := rank_lt_of_edge hr hqx
            omega
          exact ihn z hqn htg' true hz
  intro x htg
  refine ⟨fun m => key (rank x) x (le_refl _) htg m, ?_⟩
  by_contra hne
  exact key (rank x) x (le_refl _) htg true (M2 x hne)

/-- Witness for C4: in a three-task chain where task 2 already starts late
enough, the cascade from task 1 examines task 2, does not move it, and
task 3 (which would need adjustment) is neither examined nor modified. -/
theorem claim_C4_pruning_witness :
    (∀ m, ((3 : Nat), m) ∉ [((2 : Nat), false)])
    ∧ startOf [⟨1, 0, 5, none, false⟩, ⟨2, 9, 1, some 1, false⟩, ⟨3, 0, 1, some 2, false⟩] 3 =
        startOf [⟨1, 0, 5, none, false⟩, ⟨2, 9, 1, some 1, false⟩, ⟨3, 0, 1, some 2, false⟩] 3 := by
  have e23 : Edge [⟨1, 0, 5, none, false⟩, ⟨2, 9, 1, some 1, false⟩,
      ⟨3, 0, 1, some 2, false⟩] 2 3 := by decide
  exact claim_C4_pruning
    [⟨1, 0, 5, none, false⟩, ⟨2, 9, 1, some 1, false⟩, ⟨3, 0, 1, some 2, false⟩]
    1 2 (fun n => n) 3
    ([⟨1, 0, 5, none, false⟩, ⟨2, 9, 1, some 1, false⟩, ⟨3, 0, 1, some 2, false⟩],
      [(2, false)])
    (by decide) (by decide) (by decide) (by decide) (by decide) 3
    (Relation.TransGen.single e23)

theorem getTask_perm {σ τ : Store} (hperm : σ.Perm τ) (hu : UniqueIds σ)
    (hut : UniqueIds τ) (j : Nat) : getTask σ j = getTask τ j := by
  cases hg : getTask σ j with
  | none =>
    cases hg' : getTask τ j with
    | none => rfl
    | some u =>
      exfalso
      obtain ⟨hmem, hid⟩ := getTask_eq_some hg'
      have hmem' : u ∈ σ := hperm.mem_iff.mpr hmem
      have := List.find?_eq_none.mp hg u hmem'
      simp [hid] at this
  | some t =>
    obtain ⟨hmem, hid⟩ := getTask_eq_some hg
    have hmem' : t ∈ τ := hperm.mem_iff.mp hmem
    rw [← hid]
    exact (getTask_of_mem hut hmem').symm

/-- Two completed cascades from the same root over stores with the same
rows (pointwise-equal lookups, hence the same dependency graph but
possibly a different iteration order over sibling followers) end with
pointwise-equal rows. -/
theorem cascade_deterministic (σ τ : Store) (r : Nat) (rank : Nat → Nat)
    (hus : UniqueIds σ) (hut : UniqueIds τ)
    (hvs : ValidIds σ) (hvt : ValidIds τ)
    (hrs : Ranked σ rank) (hrt : Ranked τ rank)
    (hview : ∀ j, getTask σ j = getTask τ j)
    (fuel₁ fuel₂ : Nat) (out₁ out₂ : Store × Log)
    (h₁ : cascadeT fuel₁ σ r = some out₁) (h₂ : cascadeT fuel₂ τ r = some out₂) :
    ∀ x, getTask out₁.1 x = getTask out₂.1 x := by
  have hEdge : ∀ y x, Edge σ y x ↔ Edge τ y x := by
    intro y x
    constructor
    · intro he
      obtain ⟨t, ht, hd, hi⟩ := mem_followerIds.mp he
      have hg : getTask σ t.id = some t := getTask_of_mem hus ht
      rw [hview t.id] at hg
      obtain ⟨hmem, -⟩ := getTask_eq_some hg
      exact mem_followerIds.mpr ⟨t, hmem, hd, hi⟩
    · intro he
      obtain ⟨t, ht, hd, hi⟩ := mem_followerIds.mp he
      have hg : getTask τ t.id = some t := getTask_of_mem hut ht
      rw [← hview t.id] at hg
      obtain ⟨hmem, -⟩ := getTask_eq_some hg
      exact mem_followerIds.mpr ⟨t, hmem, hd, hi⟩
  obtain ⟨M1, M2, M3, M4, M5, M6, M7, M8⟩ := cascadeT_master fuel₁ σ r out₁ h₁
  obtain ⟨L1, L2, L3, L4, L5, L6, L7, L8⟩ := cascadeT_master fuel₂ τ r out₂ h₂
  obtain ⟨Ns1, Ns2⟩ := cascadeT_nodupval fuel₁ σ r out₁ h₁ hus hvs hrs
  obtain ⟨Nt1, Nt2⟩ := cascadeT_nodupval fuel₂ τ r out₂ h₂ hut hvt hrt
  have key : ∀ n x, rank x ≤ n →
      (∀ m, ((x, m) ∈ out₁.2 ↔ (x, m) ∈ out₂.2))
      ∧ getTask out₁.1 x = getTask out₂.1 x := by
    intro n
    induction n with
    | zero =>
      intro x hn
      have hnot₁ : ∀ m, (x, m) ∉ out₁.2 := by
        intro m hm
        obtain ⟨q, hq, hqx⟩ := tg_last (M4 x m hm)
        have := rank_lt_of_edge hrs hqx
        omega
      have hnot₂ : ∀ m, (x, m) ∉ out₂.2 := by
        intro m hm
        obtain ⟨q, hq, hqx⟩ := tg_last (L4 x m hm)
        have := rank_lt_of_edge hrt hqx
        omega
      refine ⟨fun m => ⟨fun h => absurd h (hnot₁ m), fun h => absurd h (hnot₂ m)⟩, ?_⟩
      rw [getTask_final_eq M1 M2 (hnot₁ true), getTask_final_eq L1 L2 (hnot₂ true)]
      exact hview x
    | succ n ihn =>
      intro x hn
      have fwd : ∀ m, (x, m) ∈ out₁.2 → (x, m) ∈ out₂.2 := by
        intro m hm
        obtain ⟨tx, pid, tp', hgx, hdx, hgp, hgx', hmv⟩ := Ns2 x m hm
        have hEpx : Edge σ pid x := by
          obtain ⟨hmem, hid⟩ := getTask_eq_some hgx
          exact mem_followerIds.mpr ⟨tx, hmem, hdx, hid⟩
        have hrankpid : rank pid < rank x := rank_lt_of_edge hrs hEpx
        have hx₂ : ∃ m₂, (x, m₂) ∈ out₂.2 := by
          rcases M3 x m hm with hrx | ⟨z, hz, hzx⟩
          · have hpidr : pid = r := parent_unique hus hEpx hrx
            have hsome : (getTask σ pid).isSome := by
              obtain ⟨u, hu', -⟩ := getTask_some_of_skel (sameSkel_symm M1) hgp
              rw [hu']; rfl
            rw [hpidr, hview r] at hsome
            exact L5 hsome x ((hEdge r x).mp hrx)
          · have hzpid : z = pid := parent_unique hus hzx hEpx
            subst hzpid
            have hz₂ : (z, true) ∈ out₂.2 :=
              ((ihn z (by omega)).1 true).mp hz
            exact L6 z hz₂ x ((hEdge z x).mp hzx)
        obtain ⟨m₂, hm₂⟩ := hx₂
        obtain ⟨tx', pid', tp'', hgx2, hdx2, hgp2, hgx2', hmv2⟩ := Nt2 x m₂ hm₂
        have htx : tx = tx' := by
          rw [hview x] at hgx
          rw [hgx] at hgx2
          exact Option.some.inj hgx2
        subst htx
        have hpid : pid = pid' := by
          rw [hdx] at hdx2
          exact Option.some.inj hdx2
        subst hpid
        have hpar := (ihn pid (by omega)).2
        rw [hgp, hgp2] at hpar
        have htp : tp' = tp'' := Option.some.inj hpar
        subst htp
        have hmm : m = m₂ := by rw [hmv, hmv2]
        rw [hmm]
        exact hm₂
      have bwd : ∀ m, (x, m) ∈ out₂.2 → (x, m) ∈ out₁.2 := by
        intro m hm
        obtain ⟨tx, pid, tp', hgx, hdx, hgp, hgx', hmv⟩ := Nt2 x m hm
        have hEpx : Edge τ pid x := by
          obtain ⟨hmem, hid⟩ := getTask_eq_some hgx
          exact mem_followerIds.mpr ⟨tx, hmem, hdx, hid⟩
        have hrankpid : rank pid < rank x := rank_lt_of_edge hrt hEpx
        have hx₂ : ∃ m₂, (x, m₂) ∈ out₁.2 := by
          rcases L3 x m hm with hrx | ⟨z, hz, hzx⟩
          · have hpidr : pid = r := parent_unique hut hEpx hrx
            have hsome : (getTask τ pid).isSome := by
              obtain ⟨u, hu', -⟩ := getTask_some_of_skel (sameSkel_symm L1) hgp
              rw [hu']; rfl
            rw [hpidr, ← hview r] at hsome
            exact M5 hsome x ((hEdge r x).mpr hrx)
          · have hzpid : z = pid := parent_unique hut hzx hEpx
            subst hzpid
            have hz₂ : (z, true) ∈ out₁.2 :=
              ((ihn z (by omega)).1 true).mpr hz
            exact M6 z hz₂ x ((hEdge z x).mpr hzx)
        obtain ⟨m₂, hm₂⟩ := hx₂
        obtain ⟨tx', pid', tp'', hgx2, hdx2, hgp2, hgx2', hmv2⟩ := Ns2 x m₂ hm₂
        have htx : tx = tx' := by
          rw [← hview x] at hgx
          rw [hgx] at hgx2
          exact Option.some.inj hgx2
        subst htx
        have hpid : pid = pid' := by
          rw [hdx] at hdx2
          exact Option.some.inj hdx2
        subst hpid
        have hpar := (ihn pid (by omega)).2
        rw [hgp2, hgp] at hpar
        have htp : tp'' = tp' := Option.some.inj hpar
        subst htp
        have hmm : m = m₂ := by rw [hmv, hmv2]
        rw [hmm]
        exact hm₂
      refine ⟨fun m => ⟨fwd m, bwd m⟩, ?_⟩
      by_cases hx₁ : ∃ m, (x, m) ∈ out₁.2
      · obtain ⟨m, hm⟩ := hx₁
        have hm₂ : (x, m) ∈ out₂.2 := fwd m hm
        obtain ⟨tx, pid, tp', hgx, hdx, hgp, hgx', hmv⟩ := Ns2 x m hm
        obtain ⟨tx', pid', tp'', hgx2, hdx2, hgp2, hgx2', hmv2⟩ := Nt2 x m hm₂
        have htx : tx = tx' := by
          rw [hview x] at hgx
          rw [hgx] at hgx2
          exact Option.some.inj hgx2
        subst htx
        have hpid : pid = pid' := by
          rw [hdx] at hdx2
          exact Option.some.inj hdx2
        subst hpid
        have hEpx : Edge σ pid x := by
          obtain ⟨hmem, hid⟩ := getTask_eq_some hgx
          exact mem_followerIds.mpr ⟨tx, hmem, hdx, hid⟩
        have hrankpid : rank pid < rank x := rank_lt_of_edge hrs hEpx
        have hpar := (ihn pid (by omega)).2
        rw [hgp, hgp2] at hpar
        have htp : tp' = tp'' := Option.some.inj hpar
        subst htp
        rw [hgx', hgx2']
      · have hx₂ : ∀ m, (x, m) ∉ out₂.2 := fun m hm => hx₁ ⟨m, bwd m hm⟩
        push_neg at hx₁
        rw [getTask_final_eq M1 M2 (hx₁ true), getTask_final_eq L1 L2 (hx₂ true)]
        exact hview x
  intro x
  exact (key (rank x) x (le_refl _)).2

/-- Claim C8: order independence.  If the same task set is stored in a
different row order (which is exactly what changes the iteration order
over sibling followers at every cascade step), two completed cascades
from the same root end with the same start_date for every task. -/
theorem claim_C8_order_independent (σ τ : Store) (r : Nat) (rank : Nat → Nat)
    (fuel₁ fuel₂ : Nat) (σ₁' σ₂' : Store)
    (hu : UniqueIds σ) (hv : ValidIds σ) (hr : Ranked σ rank)
    (hperm : σ.Perm τ)
    (h₁ : cascade_updates fuel₁ σ r = some σ₁')
    (h₂ : cascade_updates fuel₂ τ r = some σ₂') :
    ∀ x, startOf σ₁' x = startOf σ₂' x := by
  have hut : UniqueIds τ := by
    unfold UniqueIds at *
    exact (hperm.map (fun t => t.id)).nodup_iff.mp hu
  have hvt : ValidIds τ := fun t ht => hv t (hperm.mem_iff.mpr ht)
  have hrt : Ranked τ rank := fun t ht => hr t (hperm.mem_iff.mpr ht)
  have hview : ∀ j, getTask σ j = getTask τ j := getTask_perm hperm hu hut
  rw [cascade_agree] at h₁ h₂
  rcases hT₁ : cascadeT fuel₁ σ r with _ | out₁
  · rw [hT₁] at h₁; cases h₁
  rcases hT₂ : cascadeT fuel₂ τ r with _ | out₂
  · rw [hT₂] at h₂; cases h₂
  rw [hT₁] at h₁
  rw [hT₂] at h₂
  have e₁ : out₁.1 = σ₁' := by simpa using h₁
  have e₂ : out₂.1 = σ₂' := by simpa using h₂
  intro x
  rw [← e₁, ← e₂]
  unfold startOf
  rw [cascade_deterministic σ τ r rank hu hut hv hvt hr hrt hview
    fuel₁ fuel₂ out₁ out₂ hT₁ hT₂ x]

/-- Witness for C8: two sibling followers of task 1 stored in either
order; both cascades move task 2 to day 5 and leave task 3 alone, and the
resulting start for task 2 is the same. -/
theorem claim_C8_order_independent_witness :
    startOf [⟨1, 0, 5, none, false⟩, ⟨2, 5, 1, some 1, false⟩, ⟨3, 9, 1, some 1, false⟩] 2 =
      startOf [⟨1, 0, 5, none, false⟩, ⟨3, 9, 1, some 1, false⟩, ⟨2, 5, 1, some 1, false⟩] 2 :=
  claim_C8_order_independent
    [⟨1, 0, 5, none, false⟩, ⟨2, 0, 1, some 1, false⟩, ⟨3, 9, 1, some 1, false⟩]
    [⟨1, 0, 5, none, false⟩, ⟨3, 9, 1, some 1, false⟩, ⟨2, 0, 1, some 1, false⟩]
    1 (fun n => n) 3 3
    [⟨1, 0, 5, none, false⟩, ⟨2, 5, 1, some 1, false⟩, ⟨3, 9, 1, some 1, false⟩]
    [⟨1, 0, 5, none, false⟩, ⟨3, 9, 1, some 1, false⟩, ⟨2, 5, 1, some 1, false⟩]
    (by decide) (by decide) (by decide) (by decide) (by decide) (by decide) 2

end Connect2
